import Mathlib

/-!
# Verification of the STLite ordered map (red-black tree with a parallel linked list)

Shallow embedding of `src/map.hpp` (the `sjtu::map` implementation, lines 533-1171):
a red-black tree whose nodes are additionally threaded on a doubly-linked list
between two sentinel nodes `head` and `tail`.

The C++ heap is modelled as an arena `Nat → Node`; every pointer becomes a `Nat`
identifier (with `Option Nat` for nullable tree pointers), `head` is identifier 0
and `tail` is identifier 1, and each C++ statement becomes an explicit state
update.  Keys and values are specialised to `Int` with the usual order, matching
`std::less<K>`.  Loops and non-structural recursions of the source carry explicit
fuel; exhausted fuel yields `none` and never occurs on well-formed states.
-/

namespace sjtu

/-- `rbt_node::color_e` from src/map.hpp. -/
inductive Color where
  | red
  | black
deriving DecidableEq, Repr

/-- `rbt_node` from src/map.hpp: sequence links `prev`/`next`, tree links
`father`/`child[2]`, the cached side `which` (`false` = LEFT, `true` = RIGHT),
the color, and the owned `value` pointer (`none` models the null pointer held
by the sentinels). -/
structure Node where
  prev : Nat := 0
  next : Nat := 0
  father : Option Nat := none
  childL : Option Nat := none
  childR : Option Nat := none
  which : Bool := false
  color : Color := .red
  value : Option (Int × Int) := none
deriving DecidableEq, Repr

/-- `child[w]` of a node (`false` = LEFT, `true` = RIGHT). -/
def Node.child (n : Node) (w : Bool) : Option Nat :=
  if w then n.childR else n.childL

/-- Write `child[w]` of a node. -/
def Node.setChild (n : Node) (w : Bool) (c : Option Nat) : Node :=
  if w then { n with childR := c } else { n with childL := c }

/-- The id of the `head` sentinel of a container. -/
def headId : Nat := 0

/-- The id of the `tail` sentinel of a container. -/
def tailId : Nat := 1

/-- The `map` object: the arena of nodes plus the members `root`,
`__size`; `alloc` is the next fresh id (allocation counter), `dead` records
the ids freed by `delete`, and `id` is the container's identity (its address),
used by the foreign-iterator checks. -/
structure MapState where
  node : Nat → Node
  root : Option Nat := none
  size : Nat := 0
  alloc : Nat := 2
  dead : List Nat := []
  id : Nat := 0

/-- Overwrite the node stored at id `i`. -/
def MapState.set (s : MapState) (i : Nat) (n : Node) : MapState :=
  { s with node := fun j => if j = i then n else s.node j }

/-- Modify the node stored at id `i`. -/
def MapState.mod (s : MapState) (i : Nat) (f : Node → Node) : MapState :=
  s.set i (f (s.node i))

/-- Key stored at id `i` (`value->first`; junk `0` on a sentinel, whose
`value` pointer is null — the C++ code never reads it). -/
def keyOf (s : MapState) (i : Nat) : Int :=
  ((s.node i).value.getD (0, 0)).1

/-- Value stored at id `i` (`value->second`). -/
def valOf (s : MapState) (i : Nat) : Int :=
  ((s.node i).value.getD (0, 0)).2

/-- `map()`: fresh container with linked sentinels, null root, size zero. -/
def emptyMap (mid : Nat) : MapState :=
  { node := fun i =>
      if i = headId then { next := tailId }
      else if i = tailId then { prev := headId }
      else {},
    root := none, size := 0, alloc := 2, dead := [], id := mid }

/-- `map::link_node`: `a->next = b; b->prev = a;`. -/
def link_node (s : MapState) (a b : Nat) : MapState :=
  (s.mod a fun n => { n with next := b }).mod b fun n => { n with prev := a }

/-- Modify the node at an optional id (no-op on the null pointer). -/
def optMod (s : MapState) (o : Option Nat) (f : Node → Node) : MapState :=
  match o with
  | some c => s.mod c f
  | none => s

/-- `rbt_node::update_nearby`: re-assert this node into its neighbours:
`next->prev = prev->next = this;` (right-hand assignment first), then repoint
the father's child slot and the children's `father`/`which` fields. -/
def update_nearby (s : MapState) (i : Nat) : MapState :=
  let s := s.mod (s.node i).prev fun n => { n with next := i }
  let s := s.mod (s.node i).next fun n => { n with prev := i }
  let s := optMod s ((s.node i).father) fun n => n.setChild (s.node i).which (some i)
  let s := optMod s ((s.node i).childL) fun n => { n with father := some i, which := false }
  optMod s ((s.node i).childR) fun n => { n with father := some i, which := true }

/-- `rbt_node::brother`: `father->child[!which]` (the C++ code only calls it
when the father exists; a missing father yields the junk id 0). -/
def brother (s : MapState) (i : Nat) : Option Nat :=
  (s.node ((s.node i).father.getD 0)).child (!(s.node i).which)

/-- Tail of `map::swap_node` after the two field copies: patch the
self-references the exchange produced, then re-assert both nodes into their
neighbourhoods. Split out of `swap_node` (a pure let-inlining) so the patch
phase can be reasoned about separately. -/
def swap_fix (s : MapState) (a b : Nat) : MapState :=
  let s := if (s.node a).prev = a then s.mod a fun n => { n with prev := b } else s
  let s := if (s.node a).next = a then s.mod a fun n => { n with next := b } else s
  let s := if (s.node a).father = some a then s.mod a fun n => { n with father := some b } else s
  let s := if (s.node a).childL = some a then s.mod a fun n => { n with childL := some b } else s
  let s := if (s.node a).childR = some a then s.mod a fun n => { n with childR := some b } else s
  let s := if (s.node b).prev = b then s.mod b fun n => { n with prev := a } else s
  let s := if (s.node b).next = b then s.mod b fun n => { n with next := a } else s
  let s := if (s.node b).father = some b then s.mod b fun n => { n with father := some a } else s
  let s := if (s.node b).childL = some b then s.mod b fun n => { n with childL := some a } else s
  let s := if (s.node b).childR = some b then s.mod b fun n => { n with childR := some a } else s
  let s := update_nearby s a
  update_nearby s b

/-- `map::swap_node`: exchange the structural identities (sequence links, tree
links, color, side — but not the owned `value`) of two nodes, patch the
self-references created by the exchange, and re-assert both into their
neighbourhoods. -/
def swap_node (s : MapState) (a b : Nat) : MapState :=
  let s :=
    if s.root = some a then { s with root := some b }
    else if s.root = some b then { s with root := some a }
    else s
  let na := s.node a
  let nb := s.node b
  let s := s.set a
    { na with
      prev := nb.prev
      next := nb.next
      father := nb.father
      childL := nb.childL
      childR := nb.childR
      color := nb.color
      which := nb.which }
  let s := s.set b
    { nb with
      prev := na.prev
      next := na.next
      father := na.father
      childL := na.childL
      childR := na.childR
      color := na.color
      which := na.which }
  swap_fix s a b

/-- `map::rotate`: rotate the subtree rooted at `x` in direction `w`; its
child `y = x->child[!w]` takes its place (`getD 0` models the null dereference
the C++ code would make when that child is absent). -/
def rotate (s : MapState) (x : Nat) (w : Bool) : MapState :=
  let y := ((s.node x).child (!w)).getD 0
  let s := if s.root = some x then { s with root := some y } else s
  let yc := (s.node y).child w
  let s := s.mod x fun n => n.setChild (!w) yc
  let xf := (s.node x).father
  let xw := (s.node x).which
  let s := s.mod y fun n => { n with father := xf, which := xw }
  let s := s.mod x fun n => { n with father := some y, which := w }
  let s := update_nearby s x
  update_nearby s y

/-- `map::insert_fix` (recursive; fuel bounds the climb towards the root). -/
def insert_fix (s : MapState) (target : Nat) : Nat → MapState
  | 0 => s
  | fuel + 1 =>
    match (s.node target).father with
    | none => s.mod target fun n => { n with color := .black }
    | some father =>
      if (s.node father).color = .black then s
      else
        let grandpa := (s.node father).father.getD 0
        let uncle := brother s father
        let uncleBlack : Bool := match uncle with
          | none => true
          | some u => (s.node u).color = .black
        if uncleBlack then
          if (s.node target).which = (s.node father).which then
            let s := s.mod father fun n => { n with color := .black }
            let s := s.mod grandpa fun n => { n with color := .red }
            rotate s grandpa (!(s.node target).which)
          else
            let s := s.mod target fun n => { n with color := .black }
            let s := s.mod grandpa fun n => { n with color := .red }
            let s := rotate s father (!(s.node target).which)
            rotate s grandpa (!(s.node target).which)
        else
          let u := uncle.getD 0
          let s := s.mod u fun n => { n with color := .black }
          let s := s.mod father fun n => { n with color := .black }
          let s := s.mod grandpa fun n => { n with color := .red }
          insert_fix s grandpa fuel

/-- Whether an optional node is null or BLACK (the pattern
`c == nullptr || c->color == BLACK` of the C++ code). -/
def isBlackOpt (s : MapState) (o : Option Nat) : Bool :=
  match o with
  | none => true
  | some i => (s.node i).color = .black

/-- Whether an optional node is non-null and RED
(`c != nullptr && c->color == RED`). -/
def isRedOpt (s : MapState) (o : Option Nat) : Bool :=
  match o with
  | none => false
  | some i => (s.node i).color = .red

/-- Last rebalancing step of `map::erase_fix` (the exchange of the father's
and brother's colors followed by the closing rotation), split out of
`erase_fix` by pure let-factoring for modular reasoning. -/
def erase_fix_final (s : MapState) (target father : Nat) : MapState :=
  let bro2 := (brother s target).getD 0
  let fc := (s.node father).color
  let bc := (s.node bro2).color
  let s3 := s.mod father fun n => { n with color := bc }
  let s3 := s3.mod bro2 fun n => { n with color := fc }
  let farC := ((s3.node bro2).child (!(s3.node target).which)).getD 0
  let s4 := s3.mod farC fun n => { n with color := .black }
  rotate s4 father ((s4.node target).which)

/-- Non-recursive tail of `map::erase_fix` after the red-brother
normalisation, split out of `erase_fix` by pure let-factoring. -/
def erase_fix_last (s1 : MapState) (target father : Nat) : MapState :=
  let bro1 := (brother s1 target).getD 0
  if (s1.node father).color = .red ∧ (s1.node bro1).color = .black ∧
      isBlackOpt s1 ((s1.node bro1).child false) ∧
      isBlackOpt s1 ((s1.node bro1).child true) then
    let s2 := s1.mod father fun n => { n with color := .black }
    s2.mod bro1 fun n => { n with color := .red }
  else
    let s2 :=
      if isBlackOpt s1 ((s1.node bro1).child (!(s1.node target).which)) then
        let nearC := ((s1.node bro1).child (s1.node target).which).getD 0
        let s := s1.mod nearC fun n => { n with color := .black }
        let s := s.mod bro1 fun n => { n with color := .red }
        rotate s bro1 (!(s.node target).which)
      else s1
    erase_fix_final s2 target father

/-- `map::erase_fix` (recursive; fuel bounds the climb towards the root). -/
def erase_fix (s : MapState) (target : Nat) (recursive : Bool) : Nat → MapState
  | 0 => s
  | fuel + 1 =>
    if (s.node target).color = .red ∧ recursive = false then s
    else
      let child := (s.node target).child ((s.node target).childL == none)
      if isRedOpt s child ∧ recursive = false then
        s.mod (child.getD 0) fun n => { n with color := .black }
      else if s.root = some target then
        s.mod target fun n => { n with color := .black }
      else
        let father := (s.node target).father.getD 0
        let bro := (brother s target).getD 0
        if (s.node father).color = .black ∧ (s.node bro).color = .black ∧
            isBlackOpt s ((s.node bro).child false) ∧
            isBlackOpt s ((s.node bro).child true) then
          let s := s.mod bro fun n => { n with color := .red }
          erase_fix s father true fuel
        else
          let s1 :=
            if (s.node bro).color = .red then
              let s := s.mod father fun n => { n with color := .red }
              let s := s.mod bro fun n => { n with color := .black }
              rotate s father (s.node target).which
            else s
          erase_fix_last s1 target father

/-- Result of the descent loop inside `map::__insert`: either the key was
found at an existing node, or the loop stopped at the leaf to attach to. -/
inductive LoopRes where
  | found (n : Nat)
  | leaf (n : Nat) (w : Bool)
deriving DecidableEq, Repr

/-- The `while (true)` descent of `map::__insert`:
`which = less(cur->key, key); if (!which && !less(key, cur->key)) return found;
if (cur->child[which] == nullptr) break; cur = cur->child[which];`. -/
def insertLoop (s : MapState) (k : Int) : Nat → Nat → Option LoopRes
  | _, 0 => none
  | cur, fuel + 1 =>
    let which : Bool := decide (keyOf s cur < k)
    if which = false ∧ ¬ (k < keyOf s cur) then some (.found cur)
    else
      match (s.node cur).child which with
      | none => some (.leaf cur which)
      | some c => insertLoop s k c fuel

/-- The node constructor
`rbt_node(value, prev, next, father, nullptr, nullptr, which)`: allocate a RED
node with the given links and run `update_nearby` on it. -/
def newNode (s : MapState) (kv : Int × Int) (prev next : Nat) (father : Option Nat)
    (which : Bool) : MapState × Nat :=
  let i := s.alloc
  let s := { s with alloc := i + 1 }
  let s := s.set i
    { prev := prev
      next := next
      father := father
      childL := none
      childR := none
      which := which
      color := .red
      value := some kv }
  (update_nearby s i, i)

/-- `map::__insert(key, value)`: returns the updated state, the resulting node
and the `inserted` flag (`none` only on fuel exhaustion, impossible on
well-formed states). -/
def insertImpl (s : MapState) (k v : Int) : Option (MapState × Nat × Bool) :=
  match s.root with
  | none =>
    let p := newNode s (k, v) headId tailId none false
    let s := { p.1 with root := some p.2, size := p.1.size + 1 }
    some (insert_fix s p.2 s.alloc, p.2, true)
  | some r =>
    match insertLoop s k r s.alloc with
    | none => none
    | some (.found n) => some (s, n, false)
    | some (.leaf cur w) =>
      let prev := if w then cur else (s.node cur).prev
      let next := if w then (s.node cur).next else cur
      let p := newNode s (k, v) prev next (some cur) w
      let s := { p.1 with size := p.1.size + 1 }
      some (insert_fix s p.2 s.alloc, p.2, true)

/-- The tail of `map::erase(rbt_node*)` after the optional successor swap:
run `erase_fix` on the (now at most one-child) target, splice it out of the
sequence, replace it in the tree by its only child, and free it. -/
def eraseRest (s : MapState) (target : Nat) : MapState :=
  let s := erase_fix s target false s.alloc
  let s := link_node s (s.node target).prev (s.node target).next
  let child := (s.node target).child ((s.node target).childL == none)
  let s :=
    if s.root = some target then { s with root := child }
    else s.mod ((s.node target).father.getD 0) fun n => n.setChild (s.node target).which child
  let s := match child with
    | some c => s.mod c fun n =>
        { n with
          father := (s.node target).father
          which := (s.node target).which }
    | none => s
  { s with dead := target :: s.dead }

/-- `map::erase(rbt_node*)`: decrement the size, swap a two-child target with
its sequence successor (`target->next`, obtained in O(1) from the sequence
layer), then remove it via `eraseRest`. -/
def eraseImpl (s : MapState) (target : Nat) : MapState :=
  let s := { s with size := s.size - 1 }
  let s :=
    if (s.node target).childL ≠ none ∧ (s.node target).childR ≠ none then
      swap_node s target (s.node target).next
    else s
  eraseRest s target

/-- The error kinds of src/exceptions.hpp used by the map:
`index_out_of_bound` ("key not found") and `invalid_iterator`. -/
inductive MapErr where
  | indexOutOfBound
  | invalidIterator
deriving DecidableEq, Repr

/-- The descent loop of `map::find`: go left when `key < cur->key`, right when
`cur->key < key`, stop on the node otherwise; a null cursor yields `end()`
(modelled as the inner `none`).  The outer `none` is fuel exhaustion. -/
def findLoop (s : MapState) (k : Int) : Option Nat → Nat → Option (Option Nat)
  | none, _ => some none
  | some _, 0 => none
  | some cur, fuel + 1 =>
    if k < keyOf s cur then findLoop s k ((s.node cur).childL) fuel
    else if keyOf s cur < k then findLoop s k ((s.node cur).childR) fuel
    else some (some cur)

/-- `map::find`: result `some none` is `end()`, `some (some n)` an iterator at
node `n`. -/
def mapFind (s : MapState) (k : Int) : Option (Option Nat) :=
  findLoop s k s.root s.alloc

/-- `map::count`: `find(key) == cend() ? 0 : 1`. -/
def mapCount (s : MapState) (k : Int) : Option Nat :=
  (mapFind s k).map fun r => if r = none then 0 else 1

/-- `map::at`: `find`, throw `index_out_of_bound` on `end()`, otherwise return
`it->second`.  The state is returned untouched (the C++ body performs no
writes). -/
def mapAt (s : MapState) (k : Int) : Option (Except MapErr Int) :=
  (mapFind s k).map fun r =>
    match r with
    | none => .error .indexOutOfBound
    | some n => .ok (valOf s n)

/-- `map::insert(value_type)`: `__insert(value)` wrapped into an iterator. -/
def mapInsert (s : MapState) (k v : Int) : Option (MapState × Nat × Bool) :=
  insertImpl s k v

/-- `map::operator[]` (non-const): `__insert(key)->value->second`, where
`__insert(const K&)` inserts `value_type(key, V())` (default value `0`) when
the key is absent and returns the existing node otherwise. -/
def mapBracket (s : MapState) (k : Int) : Option (MapState × Int) :=
  match insertImpl s k 0 with
  | none => none
  | some (s1, n, _) => some (s1, valOf s1 n)

/-- `map::operator[]` (const): delegates to `at`. -/
def mapBracketConst (s : MapState) (k : Int) : Option (Except MapErr Int) :=
  mapAt s k

/-- An iterator value: the owning container's identity and the node pointer
(`none` is the null pointer of a default-constructed iterator). -/
structure Iter where
  owner : Nat
  nod : Option Nat
deriving DecidableEq, Repr

/-- `map::erase(iterator)`: `if (pos.__map != this || pos == end()) throw
invalid_iterator(); erase(pos.node);` — `pos == end()` is a node-pointer
comparison with this container's `tail`, which a foreign iterator can never
equal. -/
def mapEraseIter (s : MapState) (it : Iter) : Except MapErr MapState :=
  if it.owner ≠ s.id then .error .invalidIterator
  else if it.nod = some tailId then .error .invalidIterator
  else .ok (eraseImpl s (it.nod.getD 0))

/-- `iterator::operator++`: throw on the null iterator and on `end()`, else
step to `node->next`. -/
def iterInc (s : MapState) (it : Iter) : Except MapErr Iter :=
  match it.nod with
  | none => .error .invalidIterator
  | some n =>
    if n = tailId then .error .invalidIterator
    else .ok { it with nod := some ((s.node n).next) }

/-- `iterator::operator--`: throw on the null iterator and on `begin()`
(node `== __map->head->next`), else step to `node->prev`. -/
def iterDec (s : MapState) (it : Iter) : Except MapErr Iter :=
  match it.nod with
  | none => .error .invalidIterator
  | some n =>
    if n = (s.node headId).next then .error .invalidIterator
    else .ok { it with nod := some ((s.node n).prev) }

/-- `iterator::operator->` (and through it `operator*`): throw on the null
iterator and on `end()`, else return the raw `node->value` pointer (which is
null — `none` — on the head sentinel). -/
def iterDeref (s : MapState) (it : Iter) : Except MapErr (Option (Int × Int)) :=
  match it.nod with
  | none => .error .invalidIterator
  | some n =>
    if n = tailId then .error .invalidIterator
    else .ok ((s.node n).value)

/-- `map::begin()`. -/
def mapBegin (s : MapState) : Iter :=
  { owner := s.id, nod := some ((s.node headId).next) }

/-- `map::end()`. -/
def mapEnd (s : MapState) : Iter :=
  { owner := s.id, nod := some tailId }

/-- The head of the clone constructor: allocate the copy of `other` with the
given links (children null for now), copy `which`, `color` and the payload,
and splice it between `prev` and `next`
(`prev->next = next->prev = this;`, right-hand assignment first). -/
def cloneAllocNode (src : MapState) (other : Nat) (dst : MapState) (father : Option Nat)
    (prev next : Nat) : MapState × Nat :=
  let i := dst.alloc
  let dst := { dst with alloc := i + 1 }
  let dst := dst.set i
    { prev := prev
      next := next
      father := father
      childL := none
      childR := none
      which := (src.node other).which
      color := (src.node other).color
      value := (src.node other).value }
  let dst := dst.mod next fun n => { n with prev := i }
  let dst := dst.mod prev fun n => { n with next := i }
  (dst, i)

/-- The recursive clone constructor
`rbt_node(rbt_node *other, rbt_node *father, rbt_node *prev, rbt_node *next)`:
copy the payload, color and side, splice the new node between `prev` and
`next`, then clone the children, threading the left subtree between `prev` and
this node and the right subtree between this node and `next`.  `other` is read
from the source arena `src`; the copy is built in `dst`. -/
def cloneNode (src : MapState) : Nat → Nat → MapState → Option Nat → Nat → Nat →
    Option (MapState × Nat)
  | 0, _, _, _, _, _ => none
  | fuel + 1, other, dst, father, prev, next =>
    let p := cloneAllocNode src other dst father prev next
    let i := p.2
    let step1 : Option MapState :=
      match (src.node other).childL with
      | some oc =>
        match cloneNode src fuel oc p.1 (some i) prev i with
        | none => none
        | some (dst, c) => some (dst.mod i fun n => { n with childL := some c })
      | none => some p.1
    match step1 with
    | none => none
    | some dst =>
      match (src.node other).childR with
      | some oc =>
        match cloneNode src fuel oc dst (some i) i next with
        | none => none
        | some (dst, c) => some ((dst.mod i fun n => { n with childR := some c }), i)
      | none => some (dst, i)

/-- `map(const map &other)`: default-construct, and unless the source is
empty copy its size and clone its tree between `head` and `tail`.  `none`
models the undefined behaviour of a corrupt source (non-zero size with a null
root) and fuel exhaustion. -/
def mapClone (src : MapState) (newId : Nat) : Option MapState :=
  let dst := emptyMap newId
  if src.size = 0 then some dst
  else
    match src.root with
    | none => none
    | some r =>
      let dst := { dst with size := src.size }
      match cloneNode src src.alloc r dst none headId tailId with
      | none => none
      | some (dst, c) => some { dst with root := some c }

/-- The list-walking deletion loop of `map::clear`: collect the nodes from
`head->next` to `tail` into the dead list. -/
def clearLoop (s : MapState) : Nat → Nat → Option (List Nat)
  | _, 0 => none
  | cur, fuel + 1 =>
    if cur = tailId then some []
    else
      match clearLoop s ((s.node cur).next) fuel with
      | none => none
      | some l => some (cur :: l)

/-- `map::clear`: size to zero, delete every node on the list, relink the
sentinels, null the root. -/
def mapClear (s : MapState) : Option MapState :=
  match clearLoop s ((s.node headId).next) s.alloc with
  | none => none
  | some l =>
    some { s with
           size := 0
           dead := l ++ s.dead
           node := fun i =>
             if i = headId then { s.node headId with next := tailId }
             else if i = tailId then { s.node tailId with prev := headId }
             else s.node i
           root := none }

/-- `map::operator=`: return immediately on self-assignment (`this == &other`,
modelled by the `same` flag), else `clear()`, copy the size, and unless the
source is empty clone its tree between the (already existing) sentinels. -/
def mapAssign (dst src : MapState) (same : Bool) : Option MapState :=
  if same then some dst
  else
    match mapClear dst with
    | none => none
    | some d =>
      let d := { d with size := src.size }
      if src.size = 0 then some d
      else
        match src.root with
        | none => none
        | some r =>
          match cloneNode src src.alloc r d none headId tailId with
          | none => none
          | some (d, c) => some { d with root := some c }

/-! ## Observations -/

/-- Walk the `next` links from `cur` until `tail`, collecting the visited ids
(fuel-bounded; `none` when `tail` is not reached). -/
def walkIds (s : MapState) : Nat → Nat → Option (List Nat)
  | _, 0 => none
  | cur, fuel + 1 =>
    if cur = tailId then some []
    else
      match walkIds s ((s.node cur).next) fuel with
      | none => none
      | some l => some (cur :: l)

/-- The ids of the live nodes in sequence order, walking `next` from
`head->next`. -/
def mapWalk (s : MapState) : Option (List Nat) :=
  walkIds s ((s.node headId).next) s.alloc

/-- The (key, value) pairs in sequence order. -/
def mapWalkKV (s : MapState) : Option (List (Int × Int)) :=
  (mapWalk s).map fun l => l.map fun i => (keyOf s i, valOf s i)

/-- The keys in sequence order. -/
def mapWalkKeys (s : MapState) : Option (List Int) :=
  (mapWalk s).map fun l => l.map fun i => keyOf s i

/-- A functional binary tree of node ids, extracted from the arena. -/
inductive IdTree where
  | nil
  | node (l : IdTree) (i : Nat) (r : IdTree)
deriving DecidableEq, Repr

/-- Extract the tree hanging at `o` from the arena (fuel-bounded). -/
def toTree (s : MapState) : Nat → Option Nat → Option IdTree
  | _, none => some .nil
  | 0, some _ => none
  | fuel + 1, some i =>
    match toTree s fuel (s.node i).childL with
    | none => none
    | some l =>
      match toTree s fuel (s.node i).childR with
      | none => none
      | some r => some (.node l i r)

/-- In-order id list of an extracted tree. -/
def IdTree.inorder : IdTree → List Nat
  | .nil => []
  | .node l i r => l.inorder ++ i :: r.inorder

/-- Size of an extracted tree. -/
def IdTree.size : IdTree → Nat
  | .nil => 0
  | .node l _ r => l.size + 1 + r.size

/-- Root id of an extracted tree. -/
def IdTree.rootId : IdTree → Option Nat
  | .nil => none
  | .node _ i _ => some i

/-- Walk the `prev` links from `cur` until `head`, collecting the visited ids. -/
def walkPrevIds (s : MapState) : Nat → Nat → Option (List Nat)
  | _, 0 => none
  | cur, fuel + 1 =>
    if cur = headId then some []
    else
      match walkPrevIds s ((s.node cur).prev) fuel with
      | none => none
      | some l => some (cur :: l)

/-- The ids of the live nodes in reverse sequence order, walking `prev` from
`tail->prev`. -/
def mapWalkRev (s : MapState) : Option (List Nat) :=
  walkPrevIds s ((s.node tailId).prev) s.alloc

/-! ## Invariants -/

/-- Tree-link consistency: every node caches the correct `father` and `which`
(the root has a null father; its `which` is LEFT). -/
def linksOKb (s : MapState) : IdTree → Option Nat → Bool → Bool
  | .nil, _, _ => true
  | .node l i r, f, w =>
    ((s.node i).father == f) && ((s.node i).which == w) &&
      linksOKb s l (some i) false && linksOKb s r (some i) true

/-- `lo < k` for an optional lower bound. -/
def ltLo (lo : Option Int) (k : Int) : Bool :=
  match lo with
  | none => true
  | some a => decide (a < k)

/-- `k < hi` for an optional upper bound. -/
def ltHi (k : Int) (hi : Option Int) : Bool :=
  match hi with
  | none => true
  | some b => decide (k < b)

/-- Binary-search-tree property with optional key bounds. -/
def bstOKb (s : MapState) : IdTree → Option Int → Option Int → Bool
  | .nil, _, _ => true
  | .node l i r, lo, hi =>
    ltLo lo (keyOf s i) && ltHi (keyOf s i) hi &&
      bstOKb s l lo (some (keyOf s i)) && bstOKb s r (some (keyOf s i)) hi

/-- The doubly-linked chain from the node after `p` through `l` to `tail`,
with consistent `next` and `prev` pointers. -/
def chainOKb (s : MapState) : Nat → List Nat → Bool
  | p, [] => ((s.node p).next == tailId) && ((s.node tailId).prev == p)
  | p, i :: l => ((s.node p).next == i) && ((s.node i).prev == p) && chainOKb s i l

/-- The doubly-linked segment from `p` through `l` to `q`, with consistent
`next` and `prev` pointers at every joint. -/
def segOKb (s : MapState) : Nat → List Nat → Nat → Bool
  | p, [], q => ((s.node p).next == q) && ((s.node q).prev == p)
  | p, i :: l, q => ((s.node p).next == i) && ((s.node i).prev == p) && segOKb s i l q

/-- Every listed id denotes a live non-sentinel node: allocated, not freed,
holding a value. -/
def liveOKb (s : MapState) (l : List Nat) : Bool :=
  l.all fun i =>
    decide (2 ≤ i) && decide (i < s.alloc) && !(s.dead.contains i) &&
      (s.node i).value.isSome

/-- Whether the root of a subtree is BLACK (an empty subtree counts BLACK). -/
def childBlackb (s : MapState) : IdTree → Bool
  | .nil => true
  | .node _ i _ => (s.node i).color == .black

/-- No RED node has a RED child. -/
def noRedRedb (s : MapState) : IdTree → Bool
  | .nil => true
  | .node l i r =>
    (if (s.node i).color = .red then childBlackb s l && childBlackb s r else true) &&
      noRedRedb s l && noRedRedb s r

/-- Black height: `some h` when every root-to-null path through the subtree
has the same number of BLACK nodes, `none` otherwise. -/
def bh (s : MapState) : IdTree → Option Nat
  | .nil => some 0
  | .node l i r =>
    match bh s l, bh s r with
    | some a, some b =>
      if a = b then some (a + (if (s.node i).color = .black then 1 else 0)) else none
    | _, _ => none

/-- The root (when present) is BLACK. -/
def rootBlackb (s : MapState) : Bool :=
  match s.root with
  | none => true
  | some r => (s.node r).color == .black

/-- The structural well-formedness of the container (everything except the
red-black color properties): the tree extracts to `t` with consistent links,
distinct live non-sentinel nodes, the sequence layer chains `head` through
`t.inorder` to `tail`, the size matches, and keys respect the binary-search
order. -/
structure SInv (s : MapState) (t : IdTree) : Prop where
  extract : toTree s s.alloc s.root = some t
  links : linksOKb s t none false = true
  nodup : t.inorder.Nodup
  live : liveOKb s t.inorder = true
  chain : chainOKb s headId t.inorder = true
  size_eq : s.size = t.inorder.length
  bst : bstOKb s t none none = true
  sentinelH : (s.node headId).value = none
  sentinelT : (s.node tailId).value = none
  alloc2 : 2 ≤ s.alloc

/-- The red-black color properties: BLACK root, no RED node with a RED child,
equal BLACK count on every root-to-null path. -/
structure RBInv (s : MapState) (t : IdTree) : Prop where
  rootB : rootBlackb s = true
  nrr : noRedRedb s t = true
  bhOK : (bh s t).isSome = true

/-- Full container invariant. -/
def Inv (s : MapState) : Prop :=
  ∃ t, SInv s t ∧ RBInv s t

/-! ## Operation sequences -/

/-- A public mutating operation: `insert(key, value)`, or `erase(position)` on
the valid position returned by `find(key)` (erasing `end()` raises before any
mutation, leaving the state unchanged). -/
inductive MapOp where
  | ins (k v : Int)
  | del (k : Int)
deriving DecidableEq, Repr

/-- Apply one public operation. -/
def applyOp (s : MapState) : MapOp → Option MapState
  | .ins k v => (mapInsert s k v).map fun r => r.1
  | .del k =>
    match mapFind s k with
    | none => none
    | some none => some s
    | some (some n) => some (eraseImpl s n)

/-- Apply a sequence of public operations. -/
def applyOps (s : MapState) : List MapOp → Option MapState
  | [] => some s
  | op :: l =>
    match applyOp s op with
    | none => none
    | some s1 => applyOps s1 l

/-- Depth of an extracted tree (fuel needed to re-extract it). -/
def IdTree.depth : IdTree → Nat
  | .nil => 0
  | .node l _ r => max l.depth r.depth + 1

/-- Fuel-free counterpart of `toTree`: the arena hanging at `o` spans exactly
the finite tree `t`. -/
inductive Extracts (s : MapState) : Option Nat → IdTree → Prop where
  | nil : Extracts s none .nil
  | node (i : Nat) (l r : IdTree) :
      Extracts s ((s.node i).childL) l → Extracts s ((s.node i).childR) r →
      Extracts s (some i) (.node l i r)

/-- Shape of a tree with payloads and colors but without node identities,
used to compare a clone with its source. -/
inductive ShTree where
  | nil
  | node (l : ShTree) (kv : Option (Int × Int)) (c : Color) (r : ShTree)
deriving DecidableEq, Repr

/-- Forget node identities, keeping structure, payloads and colors. -/
def shapeOf (s : MapState) : IdTree → ShTree
  | .nil => .nil
  | .node l i r => .node (shapeOf s l) ((s.node i).value) ((s.node i).color) (shapeOf s r)

/-- All nodes below `bound` keep every field except possibly the `prev` field
of `next` and the `next` field of `prev` (the frame of a clone call). -/
def oldPres (dst dst2 : MapState) (bound prev next : Nat) : Prop :=
  (∀ j, j < bound →
    (dst2.node j).father = (dst.node j).father ∧
    (dst2.node j).childL = (dst.node j).childL ∧
    (dst2.node j).childR = (dst.node j).childR ∧
    (dst2.node j).which = (dst.node j).which ∧
    (dst2.node j).color = (dst.node j).color ∧
    (dst2.node j).value = (dst.node j).value) ∧
  (∀ j, j < bound → j ≠ next → (dst2.node j).prev = (dst.node j).prev) ∧
  (∀ j, j < bound → j ≠ prev → (dst2.node j).next = (dst.node j).next)

/-- One step of a tree context: the focus is child `w` of `f`, whose other
child subtree is `other`. -/
structure PathStep where
  w : Bool
  f : Nat
  other : IdTree
deriving DecidableEq, Repr

/-- Plug a focused subtree into a context (innermost step first). -/
def plug : List PathStep → IdTree → IdTree
  | [], t => t
  | p :: ps, t =>
    plug ps (if p.w then .node p.other p.f t else .node t p.f p.other)

/-- Run a sequence of operations from an empty map (total wrapper used for
concrete examples). -/
def runOps (l : List MapOp) : MapState :=
  (applyOps (emptyMap 0) l).getD (emptyMap 0)

/-- A concrete three-entry example map: keys 5, 3, 8 with values 50, 30, 80
(node ids 2, 3, 4). -/
def exMap3 : MapState :=
  runOps [.ins 5 50, .ins 3 30, .ins 8 80]

/-- The tree extracted from `exMap3`. -/
def exTree3 : IdTree :=
  .node (.node .nil 3 .nil) 2 (.node .nil 4 .nil)

/-! ## Basic lemmas on states and extraction -/

@[simp]
lemma MapState.node_set (s : MapState) (i : Nat) (n : Node) (j : Nat) :
    ((s.set i n).node j) = if j = i then n else s.node j := rfl

@[simp]
lemma MapState.root_set (s : MapState) (i : Nat) (n : Node) : (s.set i n).root = s.root := rfl

@[simp]
lemma MapState.size_set (s : MapState) (i : Nat) (n : Node) : (s.set i n).size = s.size := rfl

@[simp]
lemma MapState.alloc_set (s : MapState) (i : Nat) (n : Node) : (s.set i n).alloc = s.alloc := rfl

@[simp]
lemma MapState.dead_set (s : MapState) (i : Nat) (n : Node) : (s.set i n).dead = s.dead := rfl

@[simp]
lemma MapState.id_set (s : MapState) (i : Nat) (n : Node) : (s.set i n).id = s.id := rfl

lemma MapState.mod_eq_set (s : MapState) (i : Nat) (f : Node → Node) :
    s.mod i f = s.set i (f (s.node i)) := rfl

@[simp]
lemma MapState.root_mod (s : MapState) (i : Nat) (f : Node → Node) :
    (s.mod i f).root = s.root := rfl

@[simp]
lemma MapState.size_mod (s : MapState) (i : Nat) (f : Node → Node) :
    (s.mod i f).size = s.size := rfl

@[simp]
lemma MapState.alloc_mod (s : MapState) (i : Nat) (f : Node → Node) :
    (s.mod i f).alloc = s.alloc := rfl

@[simp]
lemma MapState.dead_mod (s : MapState) (i : Nat) (f : Node → Node) :
    (s.mod i f).dead = s.dead := rfl

@[simp]
lemma MapState.id_mod (s : MapState) (i : Nat) (f : Node → Node) :
    (s.mod i f).id = s.id := rfl

@[simp]
lemma MapState.node_mod (s : MapState) (i : Nat) (f : Node → Node) (j : Nat) :
    ((s.mod i f).node j) = if j = i then f (s.node i) else s.node j := rfl

@[simp]
lemma optMod_node (s : MapState) (o : Option Nat) (f : Node → Node) (j : Nat) :
    (optMod s o f).node j = if o = some j then f (s.node j) else s.node j := by
  cases o with
  | none => simp [optMod]
  | some c =>
    by_cases h : c = j
    · subst h
      simp [optMod]
    · simp [optMod, h, Ne.symm h]

@[simp]
lemma optMod_root (s : MapState) (o : Option Nat) (f : Node → Node) :
    (optMod s o f).root = s.root := by cases o <;> rfl

@[simp]
lemma optMod_size (s : MapState) (o : Option Nat) (f : Node → Node) :
    (optMod s o f).size = s.size := by cases o <;> rfl

@[simp]
lemma optMod_alloc (s : MapState) (o : Option Nat) (f : Node → Node) :
    (optMod s o f).alloc = s.alloc := by cases o <;> rfl

@[simp]
lemma optMod_dead (s : MapState) (o : Option Nat) (f : Node → Node) :
    (optMod s o f).dead = s.dead := by cases o <;> rfl

@[simp]
lemma optMod_id (s : MapState) (o : Option Nat) (f : Node → Node) :
    (optMod s o f).id = s.id := by cases o <;> rfl

@[simp]
lemma Node.child_false (n : Node) : n.child false = n.childL := rfl

@[simp]
lemma Node.child_true (n : Node) : n.child true = n.childR := rfl

@[simp]
lemma Node.setChild_true (n : Node) (c : Option Nat) :
    n.setChild true c = { n with childR := c } := rfl

@[simp]
lemma Node.setChild_false (n : Node) (c : Option Nat) :
    n.setChild false c = { n with childL := c } := rfl

@[simp]
lemma Node.setChild_child (n : Node) (w : Bool) (c : Option Nat) :
    (n.setChild w c).child w = c := by
  cases w <;> simp [Node.setChild, Node.child]

@[simp]
lemma Node.setChild_father (n : Node) (w : Bool) (c : Option Nat) :
    (n.setChild w c).father = n.father := by
  cases w <;> simp [Node.setChild]

@[simp]
lemma Node.setChild_which (n : Node) (w : Bool) (c : Option Nat) :
    (n.setChild w c).which = n.which := by
  cases w <;> simp [Node.setChild]

@[simp]
lemma Node.setChild_prev (n : Node) (w : Bool) (c : Option Nat) :
    (n.setChild w c).prev = n.prev := by
  cases w <;> simp [Node.setChild]

@[simp]
lemma Node.setChild_next (n : Node) (w : Bool) (c : Option Nat) :
    (n.setChild w c).next = n.next := by
  cases w <;> simp [Node.setChild]

@[simp]
lemma Node.setChild_color (n : Node) (w : Bool) (c : Option Nat) :
    (n.setChild w c).color = n.color := by
  cases w <;> simp [Node.setChild]

@[simp]
lemma Node.setChild_value (n : Node) (w : Bool) (c : Option Nat) :
    (n.setChild w c).value = n.value := by
  cases w <;> simp [Node.setChild]

lemma Node.setChild_child_other (n : Node) (w : Bool) (c : Option Nat) :
    (n.setChild w c).child (!w) = n.child (!w) := by
  cases w <;> simp [Node.setChild, Node.child]

@[simp]
lemma IdTree.inorder_nil : IdTree.inorder .nil = [] := rfl

@[simp]
lemma IdTree.inorder_node (l : IdTree) (i : Nat) (r : IdTree) :
    IdTree.inorder (.node l i r) = l.inorder ++ i :: r.inorder := rfl

lemma toTree_extracts {s : MapState} :
    ∀ {fuel : Nat} {o : Option Nat} {t : IdTree}, toTree s fuel o = some t → Extracts s o t := by
  intro fuel
  induction fuel with
  | zero =>
    intro o t h
    cases o with
    | none => simp [toTree] at h; subst h; exact .nil
    | some i => simp [toTree] at h
  | succ fuel ih =>
    intro o t h
    cases o with
    | none => simp [toTree] at h; subst h; exact .nil
    | some i =>
      simp only [toTree] at h
      rcases hl : toTree s fuel (s.node i).childL with _ | l
      · rw [hl] at h; simp at h
      rcases hr : toTree s fuel (s.node i).childR with _ | r
      · rw [hl, hr] at h; simp at h
      rw [hl, hr] at h
      simp at h
      subst h
      exact .node i l r (ih hl) (ih hr)

lemma extracts_toTree {s : MapState} :
    ∀ {o : Option Nat} {t : IdTree}, Extracts s o t →
      ∀ fuel, t.depth ≤ fuel → toTree s fuel o = some t := by
  intro o t h
  induction h with
  | nil => intro fuel _; cases fuel <;> rfl
  | node i l r _ _ ihl ihr =>
    intro fuel hf
    cases fuel with
    | zero => simp [IdTree.depth] at hf
    | succ fuel =>
      simp only [IdTree.depth, Nat.succ_le_succ_iff, max_le_iff] at hf
      simp only [toTree, ihl fuel hf.1, ihr fuel hf.2]

lemma extracts_unique {s : MapState} :
    ∀ {o : Option Nat} {t1 t2 : IdTree}, Extracts s o t1 → Extracts s o t2 → t1 = t2 := by
  intro o t1 t2 h1
  induction h1 generalizing t2 with
  | nil => intro h2; cases h2; rfl
  | node i l r _ _ ihl ihr =>
    intro h2
    cases h2 with
    | node _ l2 r2 hl2 hr2 => rw [ihl hl2, ihr hr2]

lemma extracts_congr {s s' : MapState} :
    ∀ {o : Option Nat} {t : IdTree}, Extracts s o t →
      (∀ i ∈ t.inorder, (s'.node i).childL = (s.node i).childL ∧
        (s'.node i).childR = (s.node i).childR) →
      Extracts s' o t := by
  intro o t h
  induction h with
  | nil => intro _; exact .nil
  | node i l r _ _ ihl ihr =>
    intro hc
    have hi := hc i (by simp)
    have hL : Extracts s' ((s'.node i).childL) l := by
      rw [hi.1]
      exact ihl fun j hj => hc j (by simp [hj])
    have hR : Extracts s' ((s'.node i).childR) r := by
      rw [hi.2]
      exact ihr fun j hj => hc j (by simp [hj])
    exact .node i l r hL hR

lemma keyOf_congr {s s' : MapState} {i : Nat} (h : (s'.node i).value = (s.node i).value) :
    keyOf s' i = keyOf s i := by
  simp [keyOf, h]

lemma valOf_congr {s s' : MapState} {i : Nat} (h : (s'.node i).value = (s.node i).value) :
    valOf s' i = valOf s i := by
  simp [valOf, h]

lemma linksOKb_congr {s s' : MapState} :
    ∀ {t : IdTree} {f : Option Nat} {w : Bool},
      (∀ i ∈ t.inorder, (s'.node i).father = (s.node i).father ∧
        (s'.node i).which = (s.node i).which) →
      linksOKb s' t f w = linksOKb s t f w := by
  intro t
  induction t with
  | nil => intro f w _; rfl
  | node l i r ihl ihr =>
    intro f w hc
    have hi := hc i (by simp)
    simp only [linksOKb, hi.1, hi.2]
    rw [ihl fun j hj => hc j (by simp [hj]), ihr fun j hj => hc j (by simp [hj])]

lemma bstOKb_congr {s s' : MapState} :
    ∀ {t : IdTree} {lo hi : Option Int},
      (∀ i ∈ t.inorder, (s'.node i).value = (s.node i).value) →
      bstOKb s' t lo hi = bstOKb s t lo hi := by
  intro t
  induction t with
  | nil => intro lo hi _; rfl
  | node l i r ihl ihr =>
    intro lo hi hc
    have hi2 := keyOf_congr (hc i (by simp))
    simp only [bstOKb, hi2]
    rw [ihl fun j hj => hc j (by simp [hj]), ihr fun j hj => hc j (by simp [hj])]

lemma childBlackb_congr {s s' : MapState} {t : IdTree}
    (hc : ∀ i ∈ t.inorder, (s'.node i).color = (s.node i).color) :
    childBlackb s' t = childBlackb s t := by
  cases t with
  | nil => rfl
  | node l i r => simp only [childBlackb, hc i (by simp)]

lemma noRedRedb_congr {s s' : MapState} :
    ∀ {t : IdTree},
      (∀ i ∈ t.inorder, (s'.node i).color = (s.node i).color) →
      noRedRedb s' t = noRedRedb s t := by
  intro t
  induction t with
  | nil => intro _; rfl
  | node l i r ihl ihr =>
    intro hc
    simp only [noRedRedb, hc i (by simp)]
    rw [childBlackb_congr fun j hj => hc j (by simp [hj]),
      childBlackb_congr fun j hj => hc j (by simp [hj]),
      ihl fun j hj => hc j (by simp [hj]), ihr fun j hj => hc j (by simp [hj])]

lemma bh_congr {s s' : MapState} :
    ∀ {t : IdTree},
      (∀ i ∈ t.inorder, (s'.node i).color = (s.node i).color) →
      bh s' t = bh s t := by
  intro t
  induction t with
  | nil => intro _; rfl
  | node l i r ihl ihr =>
    intro hc
    simp only [bh, hc i (by simp)]
    rw [ihl fun j hj => hc j (by simp [hj]), ihr fun j hj => hc j (by simp [hj])]

lemma chainOKb_congr {s s' : MapState} :
    ∀ {l : List Nat} {p : Nat},
      (∀ i ∈ l, (s'.node i).prev = (s.node i).prev ∧ (s'.node i).next = (s.node i).next) →
      (s'.node p).next = (s.node p).next →
      (s'.node tailId).prev = (s.node tailId).prev →
      chainOKb s' p l = chainOKb s p l := by
  intro l
  induction l with
  | nil => intro p _ hp ht; simp only [chainOKb, hp, ht]
  | cons i l ih =>
    intro p hc hp ht
    have hi := hc i (by simp)
    simp only [chainOKb, hp, hi.1]
    rw [ih (fun j hj => hc j (by simp [hj])) hi.2 ht]

lemma liveOKb_congr {s s' : MapState} {l : List Nat}
    (hc : ∀ i ∈ l, (s'.node i).value.isSome = (s.node i).value.isSome)
    (ha : s'.alloc = s.alloc) (hd : s'.dead = s.dead) :
    liveOKb s' l = liveOKb s l := by
  simp only [liveOKb, ha, hd]
  induction l with
  | nil => rfl
  | cons i l ih =>
    simp only [List.all_cons, hc i (by simp)]
    rw [ih fun j hj => hc j (by simp [hj])]

lemma chain_walkIds {s : MapState} :
    ∀ {l : List Nat} {p : Nat}, chainOKb s p l = true → (∀ i ∈ l, i ≠ tailId) →
      ∀ {fuel : Nat}, l.length < fuel → walkIds s ((s.node p).next) fuel = some l := by
  intro l
  induction l with
  | nil =>
    intro p h _ fuel hf
    simp only [chainOKb, Bool.and_eq_true, beq_iff_eq] at h
    cases fuel with
    | zero => omega
    | succ fuel => simp [walkIds, h.1]
  | cons i l ih =>
    intro p h hne fuel hf
    simp only [chainOKb, Bool.and_eq_true, beq_iff_eq] at h
    cases fuel with
    | zero => simp at hf
    | succ fuel =>
      have hl : walkIds s ((s.node i).next) fuel = some l := by
        apply ih
        · exact h.2
        · exact fun j hj => hne j (by simp [hj])
        · have hf2 := hf
          simp only [List.length_cons] at hf2
          omega
      simp [walkIds, h.1.1, hne i (by simp), hl]

lemma chain_walkPrevIds {s : MapState} :
    ∀ {l : List Nat} {p : Nat}, chainOKb s p l = true → (∀ i ∈ l, i ≠ headId) →
      ∀ {fuel : Nat}, l.length < fuel →
        walkPrevIds s ((s.node tailId).prev) fuel =
          (walkPrevIds s p (fuel - l.length)).map fun rest => l.reverse ++ rest := by
  intro l
  induction l with
  | nil =>
    intro p h _ fuel hf
    simp only [chainOKb, Bool.and_eq_true, beq_iff_eq] at h
    simp [h.2]
  | cons i l ih =>
    intro p h hne fuel hf
    simp only [chainOKb, Bool.and_eq_true, beq_iff_eq] at h
    have hlf : l.length < fuel := by
      simp only [List.length_cons] at hf
      omega
    have hrec := @ih i h.2 (fun j hj => hne j (by simp [hj])) fuel hlf
    rw [hrec]
    have hfl : fuel - l.length = (fuel - (i :: l).length) + 1 := by
      simp only [List.length_cons] at hf ⊢
      omega
    rw [hfl]
    simp only [walkPrevIds]
    rw [if_neg (hne i (by simp)), h.1.2]
    cases walkPrevIds s p (fuel - (i :: l).length) with
    | none => rfl
    | some rest => simp

lemma length_le_of_nodup {l : List Nat} {n : Nat} (hd : l.Nodup)
    (hb : ∀ i ∈ l, 2 ≤ i ∧ i < n) (h2 : 2 ≤ n) : l.length + 2 ≤ n := by
  have hsub : l.toFinset ⊆ Finset.Ico 2 n := by
    intro i hi
    simp only [List.mem_toFinset] at hi
    simp only [Finset.mem_Ico]
    exact hb i hi
  have hcard := Finset.card_le_card hsub
  rw [List.toFinset_card_of_nodup hd, Nat.card_Ico] at hcard
  omega

lemma SInv.live_mem {s : MapState} {t : IdTree} (inv : SInv s t) {i : Nat}
    (hi : i ∈ t.inorder) :
    2 ≤ i ∧ i < s.alloc ∧ i ∉ s.dead ∧ (s.node i).value.isSome := by
  have h := inv.live
  simp only [liveOKb, List.all_eq_true, Bool.and_eq_true, decide_eq_true_eq,
    Bool.not_eq_true'] at h
  have h2 := h i hi
  refine ⟨h2.1.1.1, h2.1.1.2, ?_, h2.2⟩
  intro hmem
  have hc := h2.1.2
  simp only [List.elem_eq_mem, decide_eq_false_iff_not] at hc
  exact hc hmem

lemma SInv.length_bound {s : MapState} {t : IdTree} (inv : SInv s t) :
    t.inorder.length + 2 ≤ s.alloc :=
  length_le_of_nodup inv.nodup
    (fun _ hi => ⟨(inv.live_mem hi).1, (inv.live_mem hi).2.1⟩) inv.alloc2

lemma SInv.walk_eq {s : MapState} {t : IdTree} (inv : SInv s t) :
    mapWalk s = some t.inorder := by
  unfold mapWalk
  apply chain_walkIds inv.chain
  · intro i hi
    have := (inv.live_mem hi).1
    unfold tailId
    omega
  · have := inv.length_bound
    omega

lemma bst_keys_gt {s : MapState} :
    ∀ {t : IdTree} {a : Int} {hi : Option Int}, bstOKb s t (some a) hi = true →
      ∀ i ∈ t.inorder, a < keyOf s i := by
  intro t
  induction t with
  | nil => intro a hi _ i hi2; simp at hi2
  | node l c r ihl ihr =>
    intro a hi h i hmem
    simp only [bstOKb, Bool.and_eq_true] at h
    have hroot : a < keyOf s c := by
      have := h.1.1.1
      simpa [ltLo] using this
    simp only [IdTree.inorder_node, List.mem_append, List.mem_cons] at hmem
    rcases hmem with hm | hm | hm
    · exact ihl h.1.2 i hm
    · rw [hm]; exact hroot
    · exact lt_trans hroot (ihr h.2 i hm)

lemma bst_keys_lt {s : MapState} :
    ∀ {t : IdTree} {lo : Option Int} {b : Int}, bstOKb s t lo (some b) = true →
      ∀ i ∈ t.inorder, keyOf s i < b := by
  intro t
  induction t with
  | nil => intro lo b _ i hi2; simp at hi2
  | node l c r ihl ihr =>
    intro lo b h i hmem
    simp only [bstOKb, Bool.and_eq_true] at h
    have hroot : keyOf s c < b := by
      have := h.1.1.2
      simpa [ltHi] using this
    simp only [IdTree.inorder_node, List.mem_append, List.mem_cons] at hmem
    rcases hmem with hm | hm | hm
    · exact lt_trans (ihl h.1.2 i hm) hroot
    · rw [hm]; exact hroot
    · exact ihr h.2 i hm

lemma extracts_some_inv {s : MapState} {cur : Nat} {t : IdTree}
    (h : Extracts s (some cur) t) :
    ∃ l r, t = .node l cur r ∧ Extracts s ((s.node cur).childL) l ∧
      Extracts s ((s.node cur).childR) r := by
  cases h with
  | node _ l r hl hr => exact ⟨l, r, rfl, hl, hr⟩

lemma bstOKb_node_inv {s : MapState} {l r : IdTree} {c : Nat} {lo hi : Option Int}
    (h : bstOKb s (.node l c r) lo hi = true) :
    ltLo lo (keyOf s c) = true ∧ ltHi (keyOf s c) hi = true ∧
      bstOKb s l lo (some (keyOf s c)) = true ∧ bstOKb s r (some (keyOf s c)) hi = true := by
  simp only [bstOKb, Bool.and_eq_true] at h
  exact ⟨h.1.1.1, h.1.1.2, h.1.2, h.2⟩

lemma insertLoop_found {s : MapState} :
    ∀ {t : IdTree} {cur : Nat} {lo hi : Option Int} {k : Int},
      Extracts s (some cur) t → bstOKb s t lo hi = true →
      k ∈ t.inorder.map (keyOf s) →
      ∀ {fuel : Nat}, t.size < fuel →
        ∃ n, insertLoop s k cur fuel = some (.found n) ∧ n ∈ t.inorder ∧ keyOf s n = k := by
  intro t
  induction t with
  | nil => intro cur lo hi k hx; cases hx
  | node l c r ihl ihr =>
    intro cur lo hi k hx hbst hk fuel hf
    obtain ⟨l2, r2, heq, hL, hR⟩ := extracts_some_inv hx
    cases heq
    obtain ⟨_, _, hbl, hbr⟩ := bstOKb_node_inv hbst
    cases fuel with
    | zero => simp [IdTree.size] at hf
    | succ fuel =>
      rcases lt_trichotomy k (keyOf s c) with hlt | heq2 | hgt
      · have hkl : k ∈ l.inorder.map (keyOf s) := by
          simp only [IdTree.inorder_node, List.map_append, List.map_cons,
            List.mem_append, List.mem_cons] at hk
          rcases hk with hm | hm | hm
          · exact hm
          · omega
          · exfalso
            simp only [List.mem_map] at hm
            obtain ⟨j, hj, hkey⟩ := hm
            have := bst_keys_gt hbr j hj
            omega
        have hwhich : decide (keyOf s c < k) = false := by
          simp
          omega
        rcases hL2 : (s.node c).childL with _ | cl
        · rw [hL2] at hL
          cases hL
          simp at hkl
        · rw [hL2] at hL
          obtain ⟨ll, lr, hleq, _, _⟩ := extracts_some_inv hL
          have hrec := @ihl cl lo (some (keyOf s c)) k hL hbl hkl fuel
            (by simp [IdTree.size] at hf ⊢; omega)
          obtain ⟨n, hn, hmem, hkey⟩ := hrec
          refine ⟨n, ?_, by simp [hmem], hkey⟩
          simp only [insertLoop, hwhich]
          rw [if_neg (by simp; omega)]
          simpa [Node.child, hL2] using hn
      · refine ⟨c, ?_, by simp, heq2.symm⟩
        simp only [insertLoop]
        rw [if_pos (by constructor <;> simp <;> omega)]
      · have hkr : k ∈ r.inorder.map (keyOf s) := by
          simp only [IdTree.inorder_node, List.map_append, List.map_cons,
            List.mem_append, List.mem_cons] at hk
          rcases hk with hm | hm | hm
          · exfalso
            simp only [List.mem_map] at hm
            obtain ⟨j, hj, hkey⟩ := hm
            have := bst_keys_lt hbl j hj
            omega
          · omega
          · exact hm
        have hwhich : decide (keyOf s c < k) = true := by simp; omega
        rcases hR2 : (s.node c).childR with _ | cr
        · rw [hR2] at hR
          cases hR
          simp at hkr
        · rw [hR2] at hR
          have hrec := @ihr cr (some (keyOf s c)) hi k hR hbr hkr fuel
            (by simp [IdTree.size] at hf ⊢; omega)
          obtain ⟨n, hn, hmem, hkey⟩ := hrec
          refine ⟨n, ?_, by simp [hmem], hkey⟩
          simp only [insertLoop, hwhich]
          rw [if_neg (by simp)]
          simpa [Node.child, hR2] using hn

lemma IdTree.length_inorder : ∀ t : IdTree, t.inorder.length = t.size := by
  intro t
  induction t with
  | nil => rfl
  | node l i r ihl ihr => simp [IdTree.size, ihl, ihr]; omega

lemma findLoop_present {s : MapState} :
    ∀ {t : IdTree} {cur : Nat} {lo hi : Option Int} {k : Int},
      Extracts s (some cur) t → bstOKb s t lo hi = true →
      k ∈ t.inorder.map (keyOf s) →
      ∀ {fuel : Nat}, t.size < fuel →
        ∃ n, findLoop s k (some cur) fuel = some (some n) ∧ n ∈ t.inorder ∧ keyOf s n = k := by
  intro t
  induction t with
  | nil => intro cur lo hi k hx; cases hx
  | node l c r ihl ihr =>
    intro cur lo hi k hx hbst hk fuel hf
    obtain ⟨l2, r2, heq, hL, hR⟩ := extracts_some_inv hx
    cases heq
    obtain ⟨_, _, hbl, hbr⟩ := bstOKb_node_inv hbst
    cases fuel with
    | zero => simp [IdTree.size] at hf
    | succ fuel =>
      rcases lt_trichotomy k (keyOf s c) with hlt | heq2 | hgt
      · have hkl : k ∈ l.inorder.map (keyOf s) := by
          simp only [IdTree.inorder_node, List.map_append, List.map_cons,
            List.mem_append, List.mem_cons] at hk
          rcases hk with hm | hm | hm
          · exact hm
          · omega
          · exfalso
            simp only [List.mem_map] at hm
            obtain ⟨j, hj, hkey⟩ := hm
            have := bst_keys_gt hbr j hj
            omega
        rcases hL2 : (s.node c).childL with _ | cl
        · rw [hL2] at hL
          cases hL
          simp at hkl
        · rw [hL2] at hL
          obtain ⟨n, hn, hmem, hkey⟩ := @ihl cl lo (some (keyOf s c)) k hL hbl hkl fuel
            (by simp [IdTree.size] at hf ⊢; omega)
          refine ⟨n, ?_, by simp [hmem], hkey⟩
          simp only [findLoop]
          rw [if_pos hlt, hL2]
          exact hn
      · refine ⟨c, ?_, by simp, heq2.symm⟩
        simp only [findLoop]
        rw [if_neg (by omega), if_neg (by omega)]
      · have hkr : k ∈ r.inorder.map (keyOf s) := by
          simp only [IdTree.inorder_node, List.map_append, List.map_cons,
            List.mem_append, List.mem_cons] at hk
          rcases hk with hm | hm | hm
          · exfalso
            simp only [List.mem_map] at hm
            obtain ⟨j, hj, hkey⟩ := hm
            have := bst_keys_lt hbl j hj
            omega
          · omega
          · exact hm
        rcases hR2 : (s.node c).childR with _ | cr
        · rw [hR2] at hR
          cases hR
          simp at hkr
        · rw [hR2] at hR
          obtain ⟨n, hn, hmem, hkey⟩ := @ihr cr (some (keyOf s c)) hi k hR hbr hkr fuel
            (by simp [IdTree.size] at hf ⊢; omega)
          refine ⟨n, ?_, by simp [hmem], hkey⟩
          simp only [findLoop]
          rw [if_neg (by omega), if_pos hgt, hR2]
          exact hn

lemma findLoop_absent {s : MapState} :
    ∀ {t : IdTree} {o : Option Nat} {k : Int},
      Extracts s o t → k ∉ t.inorder.map (keyOf s) →
      ∀ {fuel : Nat}, t.size < fuel → findLoop s k o fuel = some none := by
  intro t
  induction t with
  | nil =>
    intro o k hx _ fuel _
    cases hx
    cases fuel <;> rfl
  | node l c r ihl ihr =>
    intro o k hx hk fuel hf
    cases hx with
    | node _ l2 r2 hL hR =>
      cases fuel with
      | zero => simp [IdTree.size] at hf
      | succ fuel =>
        have hkni : k ≠ keyOf s c := by
          intro heq
          exact hk (by simp [heq])
        simp only [findLoop]
        rcases lt_trichotomy k (keyOf s c) with hlt | heq2 | hgt
        · rw [if_pos hlt]
          have hknl : k ∉ l.inorder.map (keyOf s) := by
            intro hm
            apply hk
            simp only [IdTree.inorder_node, List.map_append, List.map_cons,
              List.mem_append, List.mem_cons]
            exact Or.inl hm
          exact ihl hL hknl (by simp [IdTree.size] at hf ⊢; omega)
        · exact absurd heq2 hkni
        · rw [if_neg (by omega), if_pos hgt]
          have hknr : k ∉ r.inorder.map (keyOf s) := by
            intro hm
            apply hk
            simp only [IdTree.inorder_node, List.map_append, List.map_cons,
              List.mem_append, List.mem_cons]
            exact Or.inr (Or.inr hm)
          exact ihr hR hknr (by simp [IdTree.size] at hf ⊢; omega)

lemma bst_key_inj {s : MapState} :
    ∀ {t : IdTree} {lo hi : Option Int}, bstOKb s t lo hi = true →
      ∀ n ∈ t.inorder, ∀ m ∈ t.inorder, keyOf s n = keyOf s m → n = m := by
  intro t
  induction t with
  | nil => intro lo hi _ n hn; simp at hn
  | node l c r ihl ihr =>
    intro lo hi h n hn m hm hk
    obtain ⟨_, _, hbl, hbr⟩ := bstOKb_node_inv h
    simp only [IdTree.inorder_node, List.mem_append, List.mem_cons] at hn hm
    rcases hn with h1 | h1 | h1 <;> rcases hm with h2 | h2 | h2
    · exact ihl hbl n h1 m h2 hk
    · exfalso; have := bst_keys_lt hbl n h1; rw [h2] at hk; omega
    · exfalso
      have hx := bst_keys_lt hbl n h1
      have hy := bst_keys_gt hbr m h2
      omega
    · exfalso; have := bst_keys_lt hbl m h2; rw [h1] at hk; omega
    · rw [h1, h2]
    · exfalso; have := bst_keys_gt hbr m h2; rw [h1] at hk; omega
    · exfalso
      have hx := bst_keys_gt hbr n h1
      have hy := bst_keys_lt hbl m h2
      omega
    · exfalso; have := bst_keys_gt hbr n h1; rw [h2] at hk; omega
    · exact ihr hbr n h1 m h2 hk

lemma SInv.extracts {s : MapState} {t : IdTree} (inv : SInv s t) : Extracts s s.root t :=
  toTree_extracts inv.extract

lemma SInv.size_lt_alloc {s : MapState} {t : IdTree} (inv : SInv s t) :
    t.size < s.alloc := by
  have h1 := inv.length_bound
  rw [IdTree.length_inorder] at h1
  omega

lemma mapFind_present {s : MapState} {t : IdTree} (inv : SInv s t) {n : Nat}
    (hn : n ∈ t.inorder) : mapFind s (keyOf s n) = some (some n) := by
  unfold mapFind
  rcases hr : s.root with _ | r
  · have hx := inv.extracts
    rw [hr] at hx
    cases hx
    simp at hn
  · have hx := inv.extracts
    rw [hr] at hx
    obtain ⟨m, hm, hmem, hkey⟩ := findLoop_present hx inv.bst
      (by exact List.mem_map_of_mem (keyOf s) hn) inv.size_lt_alloc
    rw [hm]
    have := bst_key_inj inv.bst m hmem n hn hkey
    rw [this]

lemma mapFind_absent {s : MapState} {t : IdTree} (inv : SInv s t) {k : Int}
    (hk : k ∉ t.inorder.map (keyOf s)) : mapFind s k = some none := by
  unfold mapFind
  exact findLoop_absent inv.extracts hk inv.size_lt_alloc

lemma SInv.walkRev_eq {s : MapState} {t : IdTree} (inv : SInv s t) :
    mapWalkRev s = some t.inorder.reverse := by
  unfold mapWalkRev
  have hb := inv.length_bound
  rw [@chain_walkPrevIds s t.inorder headId inv.chain
    (fun i hi => by have := (inv.live_mem hi).1; unfold headId; omega)
    s.alloc (by omega)]
  have h1 : s.alloc - t.inorder.length = (s.alloc - t.inorder.length - 1) + 1 := by omega
  rw [h1]
  simp [walkPrevIds, headId]

/-! ## Field preservation lemmas -/

lemma MapState.set_eq_self {s : MapState} {i : Nat} {n : Node} (h : s.node i = n) :
    s.set i n = s := by
  cases s
  simp only [MapState.set, MapState.mk.injEq, and_true]
  funext j
  split
  · subst h
    simp_all
  · rfl

/-- Value and color fields of every node agree between two states. -/
def VCeq (s s2 : MapState) : Prop :=
  ∀ j, (s2.node j).value = (s.node j).value ∧ (s2.node j).color = (s.node j).color

/-- Value fields of every node agree between two states. -/
def Veq (s s2 : MapState) : Prop :=
  ∀ j, (s2.node j).value = (s.node j).value

lemma VCeq.vc_refl {s : MapState} : VCeq s s := fun _ => ⟨rfl, rfl⟩

lemma VCeq.vc_mod_right {s X : MapState} (h : VCeq s X) {i : Nat} {f : Node → Node}
    (hf : ∀ n, (f n).value = n.value ∧ (f n).color = n.color) : VCeq s (X.mod i f) := by
  intro j
  simp only [MapState.mod_eq_set, MapState.node_set]
  split
  · next heq =>
    subst heq
    exact ⟨(hf _).1.trans (h j).1, (hf _).2.trans (h j).2⟩
  · exact h j

lemma VCeq.vc_optMod_right {s X : MapState} (h : VCeq s X) {o : Option Nat} {f : Node → Node}
    (hf : ∀ n, (f n).value = n.value ∧ (f n).color = n.color) : VCeq s (optMod X o f) := by
  cases o with
  | none => exact h
  | some c => exact h.vc_mod_right hf

lemma VCeq.vc_ite_mod_right {s X : MapState} {c : Prop} [Decidable c] (h : VCeq s X)
    {i : Nat} {f : Node → Node}
    (hf : ∀ n, (f n).value = n.value ∧ (f n).color = n.color) :
    VCeq s (if c then X.mod i f else X) := by
  split
  · exact h.vc_mod_right hf
  · exact h

lemma VCeq.vc_withRoot {s X : MapState} (h : VCeq s X) {r : Option Nat} :
    VCeq s { X with root := r } := h

lemma VCeq.vc_ite_state {s X1 X2 : MapState} {c : Prop} [Decidable c]
    (h1 : VCeq s X1) (h2 : VCeq s X2) : VCeq s (if c then X1 else X2) := by
  split
  · exact h1
  · exact h2

lemma VCeq.vc_update_nearby_right {s X : MapState} (h : VCeq s X) (i : Nat) :
    VCeq s (update_nearby X i) := by
  unfold update_nearby
  simp only []
  apply VCeq.vc_optMod_right
  apply VCeq.vc_optMod_right
  apply VCeq.vc_optMod_right
  apply VCeq.vc_mod_right
  apply VCeq.vc_mod_right
  · exact h
  · exact fun n => ⟨rfl, rfl⟩
  · exact fun n => ⟨rfl, rfl⟩
  · exact fun n => ⟨by simp, by simp⟩
  · exact fun n => ⟨rfl, rfl⟩
  · exact fun n => ⟨rfl, rfl⟩

lemma VCeq.vc_rotate_right {s X : MapState} (h : VCeq s X) (x : Nat) (w : Bool) :
    VCeq s (rotate X x w) := by
  unfold rotate
  simp only []
  apply VCeq.vc_update_nearby_right
  apply VCeq.vc_update_nearby_right
  apply VCeq.vc_mod_right
  apply VCeq.vc_mod_right
  apply VCeq.vc_mod_right
  · exact VCeq.vc_ite_state h.vc_withRoot h
  · exact fun n => ⟨by simp, by simp⟩
  · exact fun n => ⟨rfl, rfl⟩
  · exact fun n => ⟨rfl, rfl⟩

lemma update_nearby_vc (s : MapState) (i : Nat) (j : Nat) :
    ((update_nearby s i).node j).value = (s.node j).value ∧
      ((update_nearby s i).node j).color = (s.node j).color :=
  (VCeq.vc_refl.vc_update_nearby_right i) j

lemma rotate_vc (s : MapState) (x : Nat) (w : Bool) (j : Nat) :
    ((rotate s x w).node j).value = (s.node j).value ∧
      ((rotate s x w).node j).color = (s.node j).color :=
  (VCeq.vc_refl.vc_rotate_right x w) j

lemma Veq.v_refl {s : MapState} : Veq s s := fun _ => rfl

lemma VCeq.toVeq {s X : MapState} (h : VCeq s X) : Veq s X := fun j => (h j).1

lemma Veq.v_mod_right {s X : MapState} (h : Veq s X) {i : Nat} {f : Node → Node}
    (hf : ∀ n, (f n).value = n.value) : Veq s (X.mod i f) := by
  intro j
  simp only [MapState.mod_eq_set, MapState.node_set]
  split
  · next heq =>
    subst heq
    exact (hf _).trans (h j)
  · exact h j

lemma Veq.v_set_right {s X : MapState} (h : Veq s X) {i : Nat} {n : Node}
    (hn : n.value = (X.node i).value) : Veq s (X.set i n) := by
  intro j
  simp only [MapState.node_set]
  split
  · next heq =>
    subst heq
    exact hn.trans (h j)
  · exact h j

lemma Veq.v_optMod_right {s X : MapState} (h : Veq s X) {o : Option Nat} {f : Node → Node}
    (hf : ∀ n, (f n).value = n.value) : Veq s (optMod X o f) := by
  cases o with
  | none => exact h
  | some c => exact h.v_mod_right hf

lemma Veq.v_ite_mod_right {s X : MapState} {c : Prop} [Decidable c] (h : Veq s X)
    {i : Nat} {f : Node → Node} (hf : ∀ n, (f n).value = n.value) :
    Veq s (if c then X.mod i f else X) := by
  split
  · exact h.v_mod_right hf
  · exact h

lemma Veq.v_withRoot {s X : MapState} (h : Veq s X) {r : Option Nat} :
    Veq s { X with root := r } := h

lemma Veq.v_ite_state {s X1 X2 : MapState} {c : Prop} [Decidable c]
    (h1 : Veq s X1) (h2 : Veq s X2) : Veq s (if c then X1 else X2) := by
  split
  · exact h1
  · exact h2

lemma Veq.v_update_nearby_right {s X : MapState} (h : Veq s X) (i : Nat) :
    Veq s (update_nearby X i) := fun j =>
  ((update_nearby_vc X i j).1).trans (h j)

lemma Veq.v_rotate_right {s X : MapState} (h : Veq s X) (x : Nat) (w : Bool) :
    Veq s (rotate X x w) := fun j =>
  ((rotate_vc X x w j).1).trans (h j)

lemma Veq.v_link_node_right {s X : MapState} (h : Veq s X) (a b : Nat) :
    Veq s (link_node X a b) := by
  unfold link_node
  apply Veq.v_mod_right
  apply Veq.v_mod_right
  · exact h
  · exact fun n => rfl
  · exact fun n => rfl

lemma Veq.v_swap_fix_right {s X : MapState} (h : Veq s X) (a b : Nat) :
    Veq s (swap_fix X a b) := by
  unfold swap_fix
  simp only []
  apply Veq.v_update_nearby_right
  apply Veq.v_update_nearby_right
  apply Veq.v_ite_mod_right
  apply Veq.v_ite_mod_right
  apply Veq.v_ite_mod_right
  apply Veq.v_ite_mod_right
  apply Veq.v_ite_mod_right
  apply Veq.v_ite_mod_right
  apply Veq.v_ite_mod_right
  apply Veq.v_ite_mod_right
  apply Veq.v_ite_mod_right
  apply Veq.v_ite_mod_right
  · exact h
  · exact fun n => rfl
  · exact fun n => rfl
  · exact fun n => rfl
  · exact fun n => rfl
  · exact fun n => rfl
  · exact fun n => rfl
  · exact fun n => rfl
  · exact fun n => rfl
  · exact fun n => rfl
  · exact fun n => rfl

lemma Veq.v_swap_node_right {s X : MapState} (h : Veq s X) (a b : Nat) :
    Veq s (swap_node X a b) := by
  unfold swap_node
  simp only []
  apply Veq.v_swap_fix_right
  apply Veq.v_set_right
  apply Veq.v_set_right
  · exact Veq.v_ite_state h.v_withRoot (Veq.v_ite_state h.v_withRoot h)
  · rfl
  · by_cases hba : b = a
    · subst hba
      simp [MapState.node_set]
    · simp [MapState.node_set, hba]

lemma update_nearby_meta (s : MapState) (i : Nat) :
    (update_nearby s i).root = s.root ∧ (update_nearby s i).size = s.size ∧
      (update_nearby s i).alloc = s.alloc ∧ (update_nearby s i).dead = s.dead ∧
      (update_nearby s i).id = s.id := by
  unfold update_nearby
  simp

lemma link_node_meta (s : MapState) (a b : Nat) :
    (link_node s a b).root = s.root ∧ (link_node s a b).size = s.size ∧
      (link_node s a b).alloc = s.alloc ∧ (link_node s a b).dead = s.dead ∧
      (link_node s a b).id = s.id := by
  unfold link_node
  simp

/-- Bookkeeping fields (size, alloc, dead list, identity) agree between states. -/
def MEq (s s2 : MapState) : Prop :=
  s2.size = s.size ∧ s2.alloc = s.alloc ∧ s2.dead = s.dead ∧ s2.id = s.id

lemma MEq.m_refl {s : MapState} : MEq s s := ⟨rfl, rfl, rfl, rfl⟩

lemma MEq.m_mod_right {s X : MapState} (h : MEq s X) {i : Nat} {f : Node → Node} :
    MEq s (X.mod i f) := h

lemma MEq.m_set_right {s X : MapState} (h : MEq s X) {i : Nat} {n : Node} :
    MEq s (X.set i n) := h

lemma MEq.m_optMod_right {s X : MapState} (h : MEq s X) {o : Option Nat} {f : Node → Node} :
    MEq s (optMod X o f) := by
  cases o with
  | none => exact h
  | some c => exact h

lemma MEq.m_withRoot {s X : MapState} (h : MEq s X) {r : Option Nat} :
    MEq s { X with root := r } := h

lemma MEq.m_ite_state {s X1 X2 : MapState} {c : Prop} [Decidable c]
    (h1 : MEq s X1) (h2 : MEq s X2) : MEq s (if c then X1 else X2) := by
  split
  · exact h1
  · exact h2

lemma MEq.m_ite_mod_right {s X : MapState} {c : Prop} [Decidable c] (h : MEq s X)
    {i : Nat} {f : Node → Node} : MEq s (if c then X.mod i f else X) :=
  MEq.m_ite_state h.m_mod_right h

lemma MEq.m_update_nearby_right {s X : MapState} (h : MEq s X) (i : Nat) :
    MEq s (update_nearby X i) := by
  unfold update_nearby
  simp only []
  apply MEq.m_optMod_right
  apply MEq.m_optMod_right
  apply MEq.m_optMod_right
  apply MEq.m_mod_right
  apply MEq.m_mod_right
  exact h

lemma MEq.m_rotate_right {s X : MapState} (h : MEq s X) (x : Nat) (w : Bool) :
    MEq s (rotate X x w) := by
  unfold rotate
  simp only []
  apply MEq.m_update_nearby_right
  apply MEq.m_update_nearby_right
  apply MEq.m_mod_right
  apply MEq.m_mod_right
  apply MEq.m_mod_right
  exact MEq.m_ite_state h.m_withRoot h

lemma MEq.m_swap_fix_right {s X : MapState} (h : MEq s X) (a b : Nat) :
    MEq s (swap_fix X a b) := by
  unfold swap_fix
  simp only []
  apply MEq.m_update_nearby_right
  apply MEq.m_update_nearby_right
  apply MEq.m_ite_mod_right
  apply MEq.m_ite_mod_right
  apply MEq.m_ite_mod_right
  apply MEq.m_ite_mod_right
  apply MEq.m_ite_mod_right
  apply MEq.m_ite_mod_right
  apply MEq.m_ite_mod_right
  apply MEq.m_ite_mod_right
  apply MEq.m_ite_mod_right
  apply MEq.m_ite_mod_right
  exact h

lemma MEq.m_swap_node_right {s X : MapState} (h : MEq s X) (a b : Nat) :
    MEq s (swap_node X a b) := by
  unfold swap_node
  simp only []
  apply MEq.m_swap_fix_right
  apply MEq.m_set_right
  apply MEq.m_set_right
  exact MEq.m_ite_state h.m_withRoot (MEq.m_ite_state h.m_withRoot h)

lemma rotate_meta (s : MapState) (x : Nat) (w : Bool) :
    (rotate s x w).size = s.size ∧ (rotate s x w).alloc = s.alloc ∧
      (rotate s x w).dead = s.dead ∧ (rotate s x w).id = s.id :=
  MEq.m_refl.m_rotate_right x w

lemma swap_node_meta (s : MapState) (a b : Nat) :
    (swap_node s a b).size = s.size ∧ (swap_node s a b).alloc = s.alloc ∧
      (swap_node s a b).dead = s.dead ∧ (swap_node s a b).id = s.id :=
  MEq.m_refl.m_swap_node_right a b

/-- Color fields of every node agree between two states. -/
def Ceq (s s2 : MapState) : Prop :=
  ∀ j, (s2.node j).color = (s.node j).color

lemma Ceq.c_refl {s : MapState} : Ceq s s := fun _ => rfl

lemma Ceq.c_mod_right {s X : MapState} (h : Ceq s X) {i : Nat} {f : Node → Node}
    (hf : ∀ n, (f n).color = n.color) : Ceq s (X.mod i f) := by
  intro j
  simp only [MapState.mod_eq_set, MapState.node_set]
  split
  · next heq =>
    subst heq
    exact (hf _).trans (h j)
  · exact h j

lemma Ceq.c_optMod_right {s X : MapState} (h : Ceq s X) {o : Option Nat} {f : Node → Node}
    (hf : ∀ n, (f n).color = n.color) : Ceq s (optMod X o f) := by
  cases o with
  | none => exact h
  | some c => exact h.c_mod_right hf

lemma Ceq.c_ite_mod_right {s X : MapState} {c : Prop} [Decidable c] (h : Ceq s X)
    {i : Nat} {f : Node → Node} (hf : ∀ n, (f n).color = n.color) :
    Ceq s (if c then X.mod i f else X) := by
  split
  · exact h.c_mod_right hf
  · exact h

lemma Ceq.c_update_nearby_right {s X : MapState} (h : Ceq s X) (i : Nat) :
    Ceq s (update_nearby X i) := by
  unfold update_nearby
  simp only []
  apply Ceq.c_optMod_right
  apply Ceq.c_optMod_right
  apply Ceq.c_optMod_right
  apply Ceq.c_mod_right
  apply Ceq.c_mod_right
  · exact h
  · exact fun n => rfl
  · exact fun n => rfl
  · exact fun n => by simp
  · exact fun n => rfl
  · exact fun n => rfl

lemma Ceq.c_swap_fix_right {s X : MapState} (h : Ceq s X) (a b : Nat) :
    Ceq s (swap_fix X a b) := by
  unfold swap_fix
  simp only []
  apply Ceq.c_update_nearby_right
  apply Ceq.c_update_nearby_right
  apply Ceq.c_ite_mod_right
  apply Ceq.c_ite_mod_right
  apply Ceq.c_ite_mod_right
  apply Ceq.c_ite_mod_right
  apply Ceq.c_ite_mod_right
  apply Ceq.c_ite_mod_right
  apply Ceq.c_ite_mod_right
  apply Ceq.c_ite_mod_right
  apply Ceq.c_ite_mod_right
  apply Ceq.c_ite_mod_right
  · exact h
  · exact fun n => rfl
  · exact fun n => rfl
  · exact fun n => rfl
  · exact fun n => rfl
  · exact fun n => rfl
  · exact fun n => rfl
  · exact fun n => rfl
  · exact fun n => rfl
  · exact fun n => rfl
  · exact fun n => rfl

lemma swap_fix_color (s : MapState) (a b : Nat) (j : Nat) :
    ((swap_fix s a b).node j).color = (s.node j).color :=
  (Ceq.c_refl.c_swap_fix_right a b) j

/-- The root patch at the head of `swap_node` leaves the arena untouched. -/
@[simp]
lemma swap_root_ite_node (s : MapState) (a b : Nat) :
    (if s.root = some a then { s with root := some b }
     else if s.root = some b then { s with root := some a }
     else s).node = s.node := by
  split_ifs <;> rfl

/-- `swap_node` exchanges exactly the colors of `a` and `b`. -/
lemma swap_node_color (s : MapState) (a b : Nat) (j : Nat) :
    ((swap_node s a b).node j).color =
      (s.node (if j = a then b else if j = b then a else j)).color := by
  unfold swap_node
  simp only []
  rw [swap_fix_color]
  simp only [MapState.node_set, swap_root_ite_node]
  split_ifs <;> first | rfl | (subst_vars; rfl)

/-- `swap_node` on a node `a` and its sequence successor `b` exchanges the two
nodes' sequence and tree links (with the mutual references patched to point at
the counterpart).  The side hypotheses say the two nodes sit in a consistent
neighbourhood: they are sequence-adjacent, no stray self/cross links exist, and
`b` is `a`'s right child exactly when `a` is `b`'s father. -/
lemma swap_node_links (s : MapState) (a b : Nat)
    (hab : a ≠ b)
    (hanext : (s.node a).next = b)
    (hbprev : (s.node b).prev = a)
    (hapn : (s.node a).prev ≠ a) (hapb : (s.node a).prev ≠ b)
    (hbnn : (s.node b).next ≠ b) (hbna : (s.node b).next ≠ a)
    (hafa : (s.node a).father ≠ some a) (hafb : (s.node a).father ≠ some b)
    (hbfb : (s.node b).father ≠ some b)
    (halL : (s.node a).childL ≠ some a) (halLb : (s.node a).childL ≠ some b)
    (harR : (s.node a).childR ≠ some a)
    (hblL : (s.node b).childL ≠ some b) (hblLa : (s.node b).childL ≠ some a)
    (hbrR : (s.node b).childR ≠ some b) (hbrRa : (s.node b).childR ≠ some a)
    (hcoh1 : (s.node b).father = some a → (s.node a).childR = some b ∧ (s.node b).which = true)
    (hcoh2 : (s.node a).childR = some b → (s.node b).father = some a) :
    ((swap_node s a b).node a).prev = b ∧
    ((swap_node s a b).node a).next = (s.node b).next ∧
    ((swap_node s a b).node a).father =
      (if (s.node b).father = some a then some b else (s.node b).father) ∧
    ((swap_node s a b).node a).childL = (s.node b).childL ∧
    ((swap_node s a b).node a).childR = (s.node b).childR ∧
    ((swap_node s a b).node a).which = (s.node b).which ∧
    ((swap_node s a b).node b).prev = (s.node a).prev ∧
    ((swap_node s a b).node b).next = a ∧
    ((swap_node s a b).node b).father = (s.node a).father ∧
    ((swap_node s a b).node b).childL = (s.node a).childL ∧
    ((swap_node s a b).node b).childR =
      (if (s.node a).childR = some b then some a else (s.node a).childR) ∧
    ((swap_node s a b).node b).which = (s.node a).which := by
  by_cases hf : (s.node b).father = some a
  · obtain ⟨hcr, hw⟩ := hcoh1 hf
    unfold swap_node swap_fix update_nearby
    simp only [MapState.node_set, MapState.node_mod, optMod_node, swap_root_ite_node]
    simp [hab, Ne.symm hab, hanext, hbprev, hapn, Ne.symm hapn, hapb, Ne.symm hapb,
      hbnn, Ne.symm hbnn, hbna, Ne.symm hbna, hafa, hafb, hbfb, halL, halLb, harR,
      hblL, hblLa, hbrR, hbrRa, hf, hcr, hw]
  · have hcr : (s.node a).childR ≠ some b := fun h => hf (hcoh2 h)
    unfold swap_node swap_fix update_nearby
    simp only [MapState.node_set, MapState.node_mod, optMod_node, swap_root_ite_node]
    simp [hab, Ne.symm hab, hanext, hbprev, hapn, Ne.symm hapn, hapb, Ne.symm hapb,
      hbnn, Ne.symm hbnn, hbna, Ne.symm hbna, hafa, hafb, hbfb, halL, halLb, harR,
      hblL, hblLa, hbrR, hbrRa, hf, hcr]

/-! ## Segment and shape lemmas -/

lemma chainOKb_eq_segOKb {s : MapState} : ∀ (l : List Nat) (p : Nat),
    chainOKb s p l = segOKb s p l tailId := by
  intro l
  induction l with
  | nil => intro p; rfl
  | cons i l ih => intro p; simp only [chainOKb, segOKb, ih]

lemma segOKb_append {s : MapState} :
    ∀ {l1 : List Nat} {p m : Nat} {l2 : List Nat} {q : Nat},
      segOKb s p l1 m = true → segOKb s m l2 q = true →
      segOKb s p (l1 ++ m :: l2) q = true := by
  intro l1
  induction l1 with
  | nil =>
    intro p m l2 q h1 h2
    simp only [chainOKb, segOKb, Bool.and_eq_true, beq_iff_eq] at h1 h2 ⊢
    rcases l2 with _ | ⟨j, l2⟩
    · simp only [segOKb, Bool.and_eq_true, beq_iff_eq] at h2 ⊢
      exact ⟨⟨h1.1, h1.2⟩, h2⟩
    · simp only [segOKb, Bool.and_eq_true, beq_iff_eq] at h2 ⊢
      exact ⟨⟨h1.1, h1.2⟩, h2⟩
  | cons i l1 ih =>
    intro p m l2 q h1 h2
    simp only [segOKb, Bool.and_eq_true, beq_iff_eq] at h1 ⊢
    exact ⟨h1.1, by
      have := ih h1.2 h2
      simpa using this⟩

lemma segOKb_congr {s s' : MapState} :
    ∀ {l : List Nat} {p q : Nat},
      (∀ i ∈ l, (s'.node i).prev = (s.node i).prev ∧ (s'.node i).next = (s.node i).next) →
      (s'.node p).next = (s.node p).next → (s'.node q).prev = (s.node q).prev →
      segOKb s' p l q = segOKb s p l q := by
  intro l
  induction l with
  | nil => intro p q _ hp hq; simp only [segOKb, hp, hq]
  | cons i l ih =>
    intro p q hc hp hq
    have hi := hc i (by simp)
    simp only [segOKb, hp, hi.1]
    rw [ih (fun j hj => hc j (by simp [hj])) hi.2 hq]

lemma shapeOf_congr {s s' : MapState} :
    ∀ {t : IdTree},
      (∀ i ∈ t.inorder, (s'.node i).value = (s.node i).value ∧
        (s'.node i).color = (s.node i).color) →
      shapeOf s' t = shapeOf s t := by
  intro t
  induction t with
  | nil => intro _; rfl
  | node l i r ihl ihr =>
    intro hc
    have hi := hc i (by simp)
    simp only [shapeOf, hi.1, hi.2]
    rw [ihl fun j hj => hc j (by simp [hj]), ihr fun j hj => hc j (by simp [hj])]

/-! ## Clone correspondence -/

lemma linksOKb_node_inv {s : MapState} {l r : IdTree} {c : Nat} {f : Option Nat} {w : Bool}
    (h : linksOKb s (.node l c r) f w = true) :
    (s.node c).father = f ∧ (s.node c).which = w ∧
      linksOKb s l (some c) false = true ∧ linksOKb s r (some c) true = true := by
  simp only [linksOKb, Bool.and_eq_true, beq_iff_eq] at h
  exact ⟨h.1.1.1, h.1.1.2, h.1.2, h.2⟩

lemma linksOKb_node_intro {s : MapState} {l r : IdTree} {c : Nat} {f : Option Nat} {w : Bool}
    (h1 : (s.node c).father = f) (h2 : (s.node c).which = w)
    (h3 : linksOKb s l (some c) false = true) (h4 : linksOKb s r (some c) true = true) :
    linksOKb s (.node l c r) f w = true := by
  simp only [linksOKb, Bool.and_eq_true, beq_iff_eq]
  exact ⟨⟨⟨h1, h2⟩, h3⟩, h4⟩

lemma oldPres_trans {d1 d2 d3 : MapState} {b1 b2 p n : Nat}
    (h1 : oldPres d1 d2 b1 p n) (h2 : oldPres d2 d3 b2 p n) (hb : b1 ≤ b2) :
    oldPres d1 d3 b1 p n := by
  obtain ⟨f1, p1, n1⟩ := h1
  obtain ⟨f2, p2, n2⟩ := h2
  refine ⟨fun j hj => ?_, fun j hj hne => ?_, fun j hj hne => ?_⟩
  · have a1 := f1 j hj
    have a2 := f2 j (by omega)
    exact ⟨a2.1.trans a1.1, a2.2.1.trans a1.2.1, a2.2.2.1.trans a1.2.2.1,
      a2.2.2.2.1.trans a1.2.2.2.1, a2.2.2.2.2.1.trans a1.2.2.2.2.1,
      a2.2.2.2.2.2.trans a1.2.2.2.2.2⟩
  · exact (p2 j (by omega) hne).trans (p1 j hj hne)
  · exact (n2 j (by omega) hne).trans (n1 j hj hne)

lemma cloneAllocNode_snd (src : MapState) (other : Nat) (dst : MapState)
    (father : Option Nat) (prev next : Nat) :
    (cloneAllocNode src other dst father prev next).2 = dst.alloc := rfl

lemma cloneAllocNode_meta (src : MapState) (other : Nat) (dst : MapState)
    (father : Option Nat) (prev next : Nat) :
    (cloneAllocNode src other dst father prev next).1.alloc = dst.alloc + 1 ∧
    (cloneAllocNode src other dst father prev next).1.root = dst.root ∧
    (cloneAllocNode src other dst father prev next).1.size = dst.size ∧
    (cloneAllocNode src other dst father prev next).1.dead = dst.dead ∧
    (cloneAllocNode src other dst father prev next).1.id = dst.id := by
  refine ⟨rfl, rfl, rfl, rfl, rfl⟩

lemma cloneAllocNode_node (src : MapState) (other : Nat) (dst : MapState)
    (father : Option Nat) (prev next : Nat)
    (hp : prev < dst.alloc) (hn : next < dst.alloc) (hpn : prev ≠ next) (j : Nat) :
    (cloneAllocNode src other dst father prev next).1.node j =
      if j = dst.alloc then
        { prev := prev, next := next, father := father, childL := none, childR := none,
          which := (src.node other).which, color := (src.node other).color,
          value := (src.node other).value }
      else if j = next then { dst.node next with prev := dst.alloc }
      else if j = prev then { dst.node prev with next := dst.alloc }
      else dst.node j := by
  simp only [cloneAllocNode, MapState.mod_eq_set, MapState.node_set]
  split_ifs with h1 h2 h3 h2 h3 h3 <;> simp_all

/-- The full correspondence for the recursive clone constructor
`rbt_node(other, father, prev, next)`: it allocates `st.size` fresh nodes
starting at `dst.alloc`, builds a tree of the same shape, payloads and colors
as the source subtree `st`, threads the new nodes as a doubly-linked segment
between `prev` and `next`, and leaves every old node untouched except for the
splice fields of the two boundary nodes. -/
lemma cloneNode_spec {src : MapState} :
    ∀ (fuel : Nat) (st : IdTree) (other : Nat) (dst : MapState) (father : Option Nat)
      (sf : Option Nat) (sw : Bool) (prev next : Nat),
      Extracts src (some other) st →
      linksOKb src st sf sw = true →
      st.size < fuel →
      prev < dst.alloc → next < dst.alloc → prev ≠ next →
      ∃ dst2 t2, cloneNode src fuel other dst father prev next = some (dst2, dst.alloc) ∧
        dst2.alloc = dst.alloc + st.size ∧
        dst2.root = dst.root ∧ dst2.size = dst.size ∧ dst2.dead = dst.dead ∧
        dst2.id = dst.id ∧
        Extracts dst2 (some dst.alloc) t2 ∧
        (∀ j ∈ t2.inorder, dst.alloc ≤ j ∧ j < dst2.alloc) ∧
        t2.inorder.Nodup ∧
        shapeOf dst2 t2 = shapeOf src st ∧
        linksOKb dst2 t2 father sw = true ∧
        segOKb dst2 prev t2.inorder next = true ∧
        oldPres dst dst2 dst.alloc prev next := by
  intro fuel
  induction fuel with
  | zero =>
    intro st other dst father sf sw prev next _ _ hf
    omega
  | succ fuel ih =>
    intro st other dst father sf sw prev next hx hlinks hf hp hn hpn
    obtain ⟨sl, sr, hst, hL, hR⟩ := extracts_some_inv hx
    subst hst
    obtain ⟨hfw, hww, hll, hlr⟩ := linksOKb_node_inv hlinks
    have hmeta := cloneAllocNode_meta src other dst father prev next
    have hnode := cloneAllocNode_node src other dst father prev next hp hn hpn
    have hni : (cloneAllocNode src other dst father prev next).1.node dst.alloc =
        { prev := prev, next := next, father := father, childL := none, childR := none,
          which := (src.node other).which, color := (src.node other).color,
          value := (src.node other).value } := by
      rw [hnode]
      simp
    have hnp : (cloneAllocNode src other dst father prev next).1.node prev =
        { dst.node prev with next := dst.alloc } := by
      rw [hnode]
      rw [if_neg (by omega), if_neg hpn, if_pos rfl]
    have hnn : (cloneAllocNode src other dst father prev next).1.node next =
        { dst.node next with prev := dst.alloc } := by
      rw [hnode]
      rw [if_neg (by omega), if_pos rfl]
    have holdp : oldPres dst (cloneAllocNode src other dst father prev next).1
        dst.alloc prev next := by
      refine ⟨fun j hj => ?_, fun j hj hne => ?_, fun j hj hne => ?_⟩
      · rw [hnode, if_neg (by omega)]
        split_ifs with h1 h2 <;> subst_vars <;> simp
      · rw [hnode, if_neg (by omega), if_neg hne]
        split_ifs with h1 <;> subst_vars <;> simp
      · rw [hnode, if_neg (by omega)]
        split_ifs with h1 h2 <;> subst_vars <;> simp
    rcases hCL : (src.node other).childL with _ | oc <;>
      rcases hCR : (src.node other).childR with _ | ocr
    · -- no children: the clone is the single allocated node
      rw [hCL] at hL
      rw [hCR] at hR
      cases hL
      cases hR
      refine ⟨(cloneAllocNode src other dst father prev next).1,
        .node .nil dst.alloc .nil, ?_, ?_, hmeta.2.1, hmeta.2.2.1, hmeta.2.2.2.1,
        hmeta.2.2.2.2, ?_, ?_, ?_, ?_, ?_, ?_, holdp⟩
      · simp only [cloneNode, hCL, hCR, cloneAllocNode_snd]
      · simp [IdTree.size, hmeta.1]
      · refine Extracts.node dst.alloc .nil .nil ?_ ?_ <;> rw [hni] <;> exact .nil
      · intro j hj
        simp only [IdTree.inorder_node, IdTree.inorder_nil, List.nil_append,
          List.mem_cons, List.not_mem_nil, or_false] at hj
        subst hj
        omega
      · simp
      · simp [shapeOf, hni]
      · simp [linksOKb, hni, hww]
      · simp only [IdTree.inorder_node, IdTree.inorder_nil, List.nil_append, segOKb,
          Bool.and_eq_true, beq_iff_eq]
        rw [hni, hnp, hnn]
        simp
    · -- right child only
      rw [hCL] at hL
      rw [hCR] at hR
      cases hL
      obtain ⟨dR, tR, heqR, hallocR, hrootR, hsizeR, hdeadR, hidR, hxR, hboundsR, hnodupR,
        hshapeR, hlinksR, hsegR, holdR⟩ :=
        ih sr ocr (cloneAllocNode src other dst father prev next).1 (some dst.alloc)
          (some other) true dst.alloc next hR hlr
          (by simp only [IdTree.size] at hf; omega)
          (by rw [hmeta.1]; omega) (by rw [hmeta.1]; omega) (by omega)
      rw [hmeta.1] at heqR hallocR
      obtain ⟨hfieldR, hprevR, hnextR⟩ := holdR
      have hd2 : ∀ j, j ≠ dst.alloc →
          ((dR.mod dst.alloc fun n => { n with childR := some (dst.alloc + 1) }).node j) =
            dR.node j := by
        intro j hj
        simp [MapState.mod_eq_set, hj]
      have hd2i : ((dR.mod dst.alloc fun n =>
          { n with childR := some (dst.alloc + 1) }).node dst.alloc) =
            { dR.node dst.alloc with childR := some (dst.alloc + 1) } := by
        simp [MapState.mod_eq_set]
      have hdRi := hfieldR dst.alloc (by rw [hmeta.1]; omega)
      have hdRinext := hprevR dst.alloc (by rw [hmeta.1]; omega) (by omega)
      have htRmem : ∀ j ∈ tR.inorder, j ≠ dst.alloc := by
        intro j hj
        have := hboundsR j hj
        rw [hmeta.1] at this
        omega
      refine ⟨dR.mod dst.alloc fun n => { n with childR := some (dst.alloc + 1) },
        .node .nil dst.alloc tR, ?_, ?_, ?_, ?_, ?_, ?_, ?_, ?_, ?_, ?_, ?_, ?_, ?_⟩
      · simp only [cloneNode, cloneAllocNode_snd, hCL, hCR, heqR]
      · simp only [MapState.alloc_set, MapState.mod_eq_set]
        simp only [IdTree.size]
        omega
      · simp only [MapState.mod_eq_set, MapState.root_set]
        rw [hrootR, hmeta.2.1]
      · simp only [MapState.mod_eq_set, MapState.size_set]
        rw [hsizeR, hmeta.2.2.1]
      · simp only [MapState.mod_eq_set, MapState.dead_set]
        rw [hdeadR, hmeta.2.2.2.1]
      · simp only [MapState.mod_eq_set, MapState.id_set]
        rw [hidR, hmeta.2.2.2.2]
      · refine Extracts.node dst.alloc .nil tR ?_ ?_
        · rw [hd2i]
          show Extracts _ (dR.node dst.alloc).childL .nil
          rw [hdRi.2.1, hni]
          exact .nil
        · rw [hd2i]
          simp only []
          show Extracts _ (some (dst.alloc + 1)) tR
          refine extracts_congr hxR ?_
          intro j hj
          rw [hd2 j (htRmem j hj)]
          exact ⟨rfl, rfl⟩
      · intro j hj
        simp only [IdTree.inorder_node, IdTree.inorder_nil, List.nil_append,
          List.mem_cons] at hj
        simp only [MapState.mod_eq_set, MapState.alloc_set]
        rcases hj with hj | hj
        · subst hj
          omega
        · have := hboundsR j hj
          rw [hmeta.1] at this
          omega
      · simp only [IdTree.inorder_node, IdTree.inorder_nil, List.nil_append,
          List.nodup_cons]
        exact ⟨fun hc => htRmem dst.alloc hc rfl, hnodupR⟩
      · simp only [shapeOf]
        have h1 : shapeOf (dR.mod dst.alloc fun n =>
            { n with childR := some (dst.alloc + 1) }) tR = shapeOf dR tR := by
          refine shapeOf_congr ?_
          intro j hj
          rw [hd2 j (htRmem j hj)]
          exact ⟨rfl, rfl⟩
        rw [h1, hshapeR, hd2i]
        simp only []
        rw [hdRi.2.2.2.2.1, hdRi.2.2.2.2.2, hni]
      · refine linksOKb_node_intro ?_ ?_ ?_ ?_
        · rw [hd2i]
          show (dR.node dst.alloc).father = father
          rw [hdRi.1, hni]
        · rw [hd2i]
          show (dR.node dst.alloc).which = sw
          rw [hdRi.2.2.2.1, hni, hww]
        · rfl
        · rw [linksOKb_congr]
          · exact hlinksR
          · intro j hj
            rw [hd2 j (htRmem j hj)]
            exact ⟨rfl, rfl⟩
      · simp only [IdTree.inorder_node, IdTree.inorder_nil, List.nil_append, segOKb,
          Bool.and_eq_true, beq_iff_eq]
        refine ⟨⟨?_, ?_⟩, ?_⟩
        · rw [hd2 prev (by omega)]
          rw [hnextR prev (by rw [hmeta.1]; omega) (by omega), hnp]
        · rw [hd2i]
          show (dR.node dst.alloc).prev = prev
          rw [hdRinext, hni]
        · have hseg2 : segOKb (dR.mod dst.alloc fun n =>
              { n with childR := some (dst.alloc + 1) }) dst.alloc tR.inorder next =
                segOKb dR dst.alloc tR.inorder next := by
            refine segOKb_congr ?_ ?_ ?_
            · intro j hj
              rw [hd2 j (htRmem j hj)]
              exact ⟨rfl, rfl⟩
            · rw [hd2i]
            · rw [hd2 next (by omega)]
          rw [hseg2]
          simpa using hsegR
      · refine ⟨fun j hj => ?_, fun j hj hne => ?_, fun j hj hne => ?_⟩
        · rw [hd2 j (by omega)]
          have ha := hfieldR j (by rw [hmeta.1]; omega)
          have hb := holdp.1 j hj
          exact ⟨ha.1.trans hb.1, ha.2.1.trans hb.2.1, ha.2.2.1.trans hb.2.2.1,
            ha.2.2.2.1.trans hb.2.2.2.1, ha.2.2.2.2.1.trans hb.2.2.2.2.1,
            ha.2.2.2.2.2.trans hb.2.2.2.2.2⟩
        · rw [hd2 j (by omega)]
          rw [hprevR j (by rw [hmeta.1]; omega) hne]
          exact holdp.2.1 j hj hne
        · rw [hd2 j (by omega)]
          rw [hnextR j (by rw [hmeta.1]; omega) (by omega)]
          exact holdp.2.2 j hj hne
    · -- left child only
      rw [hCL] at hL
      rw [hCR] at hR
      cases hR
      obtain ⟨dL, tL, heqL, hallocL, hrootL, hsizeL, hdeadL, hidL, hxL, hboundsL, hnodupL,
        hshapeL, hlinksL, hsegL, holdL⟩ :=
        ih sl oc (cloneAllocNode src other dst father prev next).1 (some dst.alloc)
          (some other) false prev dst.alloc hL hll
          (by simp only [IdTree.size] at hf; omega)
          (by rw [hmeta.1]; omega) (by rw [hmeta.1]; omega) (by omega)
      rw [hmeta.1] at heqL hallocL
      obtain ⟨hfieldL, hprevL, hnextL⟩ := holdL
      have hd2 : ∀ j, j ≠ dst.alloc →
          ((dL.mod dst.alloc fun n => { n with childL := some (dst.alloc + 1) }).node j) =
            dL.node j := by
        intro j hj
        simp [MapState.mod_eq_set, hj]
      have hd2i : ((dL.mod dst.alloc fun n =>
          { n with childL := some (dst.alloc + 1) }).node dst.alloc) =
            { dL.node dst.alloc with childL := some (dst.alloc + 1) } := by
        simp [MapState.mod_eq_set]
      have hdLi := hfieldL dst.alloc (by rw [hmeta.1]; omega)
      have hdLiprev := hnextL dst.alloc (by rw [hmeta.1]; omega) (by omega)
      have htLmem : ∀ j ∈ tL.inorder, j ≠ dst.alloc := by
        intro j hj
        have := hboundsL j hj
        rw [hmeta.1] at this
        omega
      refine ⟨dL.mod dst.alloc fun n => { n with childL := some (dst.alloc + 1) },
        .node tL dst.alloc .nil, ?_, ?_, ?_, ?_, ?_, ?_, ?_, ?_, ?_, ?_, ?_, ?_, ?_⟩
      · simp only [cloneNode, cloneAllocNode_snd, hCL, hCR, heqL]
      · simp only [MapState.alloc_set, MapState.mod_eq_set]
        simp only [IdTree.size]
        omega
      · simp only [MapState.mod_eq_set, MapState.root_set]
        rw [hrootL, hmeta.2.1]
      · simp only [MapState.mod_eq_set, MapState.size_set]
        rw [hsizeL, hmeta.2.2.1]
      · simp only [MapState.mod_eq_set, MapState.dead_set]
        rw [hdeadL, hmeta.2.2.2.1]
      · simp only [MapState.mod_eq_set, MapState.id_set]
        rw [hidL, hmeta.2.2.2.2]
      · refine Extracts.node dst.alloc tL .nil ?_ ?_
        · rw [hd2i]
          simp only []
          show Extracts _ (some (dst.alloc + 1)) tL
          refine extracts_congr hxL ?_
          intro j hj
          rw [hd2 j (htLmem j hj)]
          exact ⟨rfl, rfl⟩
        · rw [hd2i]
          show Extracts _ (dL.node dst.alloc).childR .nil
          rw [hdLi.2.2.1, hni]
          exact .nil
      · intro j hj
        simp only [IdTree.inorder_node, IdTree.inorder_nil, List.mem_append,
          List.mem_cons, List.not_mem_nil, or_false] at hj
        simp only [MapState.mod_eq_set, MapState.alloc_set]
        rcases hj with hj | hj
        · have := hboundsL j hj
          rw [hmeta.1] at this
          omega
        · subst hj
          omega
      · simp only [IdTree.inorder_node, IdTree.inorder_nil]
        rw [List.nodup_append]
        refine ⟨hnodupL, by simp, ?_⟩
        intro j hj hj2
        simp only [List.mem_cons, List.not_mem_nil, or_false] at hj2
        exact htLmem j hj hj2
      · simp only [shapeOf]
        have h1 : shapeOf (dL.mod dst.alloc fun n =>
            { n with childL := some (dst.alloc + 1) }) tL = shapeOf dL tL := by
          refine shapeOf_congr ?_
          intro j hj
          rw [hd2 j (htLmem j hj)]
          exact ⟨rfl, rfl⟩
        rw [h1, hshapeL, hd2i]
        simp only []
        rw [hdLi.2.2.2.2.1, hdLi.2.2.2.2.2, hni]
      · refine linksOKb_node_intro ?_ ?_ ?_ ?_
        · rw [hd2i]
          show (dL.node dst.alloc).father = father
          rw [hdLi.1, hni]
        · rw [hd2i]
          show (dL.node dst.alloc).which = sw
          rw [hdLi.2.2.2.1, hni, hww]
        · rw [linksOKb_congr]
          · exact hlinksL
          · intro j hj
            rw [hd2 j (htLmem j hj)]
            exact ⟨rfl, rfl⟩
        · rfl
      · simp only [IdTree.inorder_node, IdTree.inorder_nil]
        refine segOKb_append ?_ ?_
        · rw [segOKb_congr]
          · exact hsegL
          · intro j hj
            rw [hd2 j (htLmem j hj)]
            exact ⟨rfl, rfl⟩
          · rw [hd2 prev (by omega)]
          · rw [hd2i]
        · simp only [segOKb, Bool.and_eq_true, beq_iff_eq]
          constructor
          · rw [hd2i]
            show (dL.node dst.alloc).next = next
            rw [hdLiprev, hni]
          · rw [hd2 next (by omega)]
            rw [hprevL next (by rw [hmeta.1]; omega) (by omega), hnn]
      · refine ⟨fun j hj => ?_, fun j hj hne => ?_, fun j hj hne => ?_⟩
        · rw [hd2 j (by omega)]
          have ha := hfieldL j (by rw [hmeta.1]; omega)
          have hb := holdp.1 j hj
          exact ⟨ha.1.trans hb.1, ha.2.1.trans hb.2.1, ha.2.2.1.trans hb.2.2.1,
            ha.2.2.2.1.trans hb.2.2.2.1, ha.2.2.2.2.1.trans hb.2.2.2.2.1,
            ha.2.2.2.2.2.trans hb.2.2.2.2.2⟩
        · rw [hd2 j (by omega)]
          rw [hprevL j (by rw [hmeta.1]; omega) (by omega)]
          exact holdp.2.1 j hj hne
        · rw [hd2 j (by omega)]
          rw [hnextL j (by rw [hmeta.1]; omega) hne]
          exact holdp.2.2 j hj hne
    · -- both children
      rw [hCL] at hL
      rw [hCR] at hR
      obtain ⟨dL, tL, heqL, hallocL, hrootL, hsizeL, hdeadL, hidL, hxL, hboundsL, hnodupL,
        hshapeL, hlinksL, hsegL, holdL⟩ :=
        ih sl oc (cloneAllocNode src other dst father prev next).1 (some dst.alloc)
          (some other) false prev dst.alloc hL hll
          (by simp only [IdTree.size] at hf; omega)
          (by rw [hmeta.1]; omega) (by rw [hmeta.1]; omega) (by omega)
      rw [hmeta.1] at heqL hallocL
      obtain ⟨hfieldL, hprevL, hnextL⟩ := holdL
      obtain ⟨dR, tR, heqR, hallocR, hrootR, hsizeR, hdeadR, hidR, hxR, hboundsR, hnodupR,
        hshapeR, hlinksR, hsegR, holdR⟩ :=
        ih sr ocr (dL.mod dst.alloc fun n => { n with childL := some (dst.alloc + 1) })
          (some dst.alloc) (some other) true dst.alloc next hR hlr
          (by simp only [IdTree.size] at hf; omega)
          (by simp only [MapState.mod_eq_set, MapState.alloc_set]; omega)
          (by simp only [MapState.mod_eq_set, MapState.alloc_set]; omega)
          (by omega)
      simp only [MapState.alloc_mod] at heqR hallocR
      obtain ⟨hfieldR, hprevR, hnextR⟩ := holdR
      have hd6 : ∀ j, j ≠ dst.alloc →
          ((dL.mod dst.alloc fun n => { n with childL := some (dst.alloc + 1) }).node j) =
            dL.node j := by
        intro j hj
        simp [MapState.mod_eq_set, hj]
      have hd6i : ((dL.mod dst.alloc fun n =>
          { n with childL := some (dst.alloc + 1) }).node dst.alloc) =
            { dL.node dst.alloc with childL := some (dst.alloc + 1) } := by
        simp [MapState.mod_eq_set]
      have hd2 : ∀ j, j ≠ dst.alloc →
          ((dR.mod dst.alloc fun n => { n with childR := some dL.alloc }).node j) =
            dR.node j := by
        intro j hj
        simp [MapState.mod_eq_set, hj]
      have hd2i : ((dR.mod dst.alloc fun n => { n with childR := some dL.alloc }).node
          dst.alloc) = { dR.node dst.alloc with childR := some dL.alloc } := by
        simp [MapState.mod_eq_set]
      have hdLi := hfieldL dst.alloc (by rw [hmeta.1]; omega)
      have hdLiprev := hnextL dst.alloc (by rw [hmeta.1]; omega) (by omega)
      have hdRi := hfieldR dst.alloc (by
        simp only [MapState.mod_eq_set, MapState.alloc_set]; omega)
      have htLmem : ∀ j ∈ tL.inorder, dst.alloc + 1 ≤ j ∧ j < dL.alloc := by
        intro j hj
        have := hboundsL j hj
        rw [hmeta.1] at this
        omega
      have htRmem : ∀ j ∈ tR.inorder, dL.alloc ≤ j ∧ j < dR.alloc := by
        intro j hj
        have := hboundsR j hj
        simp only [MapState.mod_eq_set, MapState.alloc_set] at this
        omega
      have hLalloc : dst.alloc + 1 ≤ dL.alloc := by omega
      -- fields of the tL nodes survive the childL write, the right clone and
      -- the childR write
      have htLsame : ∀ j ∈ tL.inorder,
          ((dR.mod dst.alloc fun n => { n with childR := some dL.alloc }).node j) =
            dL.node j := by
        intro j hj
        have hb := htLmem j hj
        rw [hd2 j (by omega)]
        have h1 := hfieldR j (by simp only [MapState.mod_eq_set, MapState.alloc_set]; omega)
        have h2 := hprevR j (by simp only [MapState.mod_eq_set, MapState.alloc_set]; omega)
          (by omega)
        have h3 := hnextR j (by simp only [MapState.mod_eq_set, MapState.alloc_set]; omega)
          (by omega)
        rw [hd6 j (by omega)] at h1 h2 h3
        cases hnj : (dR.node j) with
        | mk p2 n2 f2 cl2 cr2 w2 c2 v2 =>
          cases hdj : (dL.node j) with
          | mk p3 n3 f3 cl3 cr3 w3 c3 v3 =>
            rw [hnj, hdj] at h1 h2 h3
            simp only [] at h1 h2 h3 ⊢
            simp_all
      have htRsame : ∀ j ∈ tR.inorder,
          ((dR.mod dst.alloc fun n => { n with childR := some dL.alloc }).node j) =
            dR.node j := by
        intro j hj
        have hb := htRmem j hj
        exact hd2 j (by omega)
      refine ⟨dR.mod dst.alloc fun n => { n with childR := some dL.alloc },
        .node tL dst.alloc tR, ?_, ?_, ?_, ?_, ?_, ?_, ?_, ?_, ?_, ?_, ?_, ?_, ?_⟩
      · simp only [cloneNode, cloneAllocNode_snd, hCL, hCR, heqL, heqR]
      · simp only [MapState.alloc_set, MapState.mod_eq_set]
        simp only [IdTree.size]
        omega
      · simp only [MapState.mod_eq_set, MapState.root_set]
        rw [hrootR]
        simp only [MapState.mod_eq_set, MapState.root_set]
        rw [hrootL, hmeta.2.1]
      · simp only [MapState.mod_eq_set, MapState.size_set]
        rw [hsizeR]
        simp only [MapState.mod_eq_set, MapState.size_set]
        rw [hsizeL, hmeta.2.2.1]
      · simp only [MapState.mod_eq_set, MapState.dead_set]
        rw [hdeadR]
        simp only [MapState.mod_eq_set, MapState.dead_set]
        rw [hdeadL, hmeta.2.2.2.1]
      · simp only [MapState.mod_eq_set, MapState.id_set]
        rw [hidR]
        simp only [MapState.mod_eq_set, MapState.id_set]
        rw [hidL, hmeta.2.2.2.2]
      · refine Extracts.node dst.alloc tL tR ?_ ?_
        · rw [hd2i]
          simp only []
          show Extracts _ (dR.node dst.alloc).childL tL
          rw [hdRi.2.1, hd6i]
          simp only []
          refine extracts_congr hxL ?_
          intro j hj
          rw [htLsame j hj]
          exact ⟨rfl, rfl⟩
        · rw [hd2i]
          simp only []
          show Extracts _ (some dL.alloc) tR
          refine extracts_congr hxR ?_
          intro j hj
          rw [htRsame j hj]
          exact ⟨rfl, rfl⟩
      · intro j hj
        simp only [IdTree.inorder_node, List.mem_append, List.mem_cons] at hj
        simp only [MapState.mod_eq_set, MapState.alloc_set]
        rcases hj with hj | hj | hj
        · have := htLmem j hj
          omega
        · subst hj
          omega
        · have := htRmem j hj
          omega
      · simp only [IdTree.inorder_node]
        rw [List.nodup_append]
        refine ⟨hnodupL, ?_, ?_⟩
        · rw [List.nodup_cons]
          refine ⟨fun hc => ?_, hnodupR⟩
          have := htRmem dst.alloc hc
          omega
        · intro j hj hj2
          have h1 := htLmem j hj
          simp only [List.mem_cons] at hj2
          rcases hj2 with hj2 | hj2
          · omega
          · have := htRmem j hj2
            omega
      · simp only [shapeOf]
        have h1 : shapeOf (dR.mod dst.alloc fun n => { n with childR := some dL.alloc })
            tL = shapeOf dL tL := by
          refine shapeOf_congr ?_
          intro j hj
          rw [htLsame j hj]
          exact ⟨rfl, rfl⟩
        have h2 : shapeOf (dR.mod dst.alloc fun n => { n with childR := some dL.alloc })
            tR = shapeOf dR tR := by
          refine shapeOf_congr ?_
          intro j hj
          rw [htRsame j hj]
          exact ⟨rfl, rfl⟩
        rw [h1, h2, hshapeL, hshapeR, hd2i]
        simp only []
        rw [hdRi.2.2.2.2.1, hdRi.2.2.2.2.2, hd6i]
        simp only []
        rw [hdLi.2.2.2.2.1, hdLi.2.2.2.2.2, hni]
      · refine linksOKb_node_intro ?_ ?_ ?_ ?_
        · rw [hd2i]
          show (dR.node dst.alloc).father = father
          rw [hdRi.1, hd6i]
          show (dL.node dst.alloc).father = father
          rw [hdLi.1, hni]
        · rw [hd2i]
          show (dR.node dst.alloc).which = sw
          rw [hdRi.2.2.2.1, hd6i]
          show (dL.node dst.alloc).which = sw
          rw [hdLi.2.2.2.1, hni, hww]
        · rw [linksOKb_congr]
          · exact hlinksL
          · intro j hj
            rw [htLsame j hj]
            exact ⟨rfl, rfl⟩
        · rw [linksOKb_congr]
          · exact hlinksR
          · intro j hj
            rw [htRsame j hj]
            exact ⟨rfl, rfl⟩
      · simp only [IdTree.inorder_node]
        refine segOKb_append ?_ ?_
        · rw [segOKb_congr]
          · exact hsegL
          · intro j hj
            rw [htLsame j hj]
            exact ⟨rfl, rfl⟩
          · -- the next field of prev is untouched after the left clone
            rw [hd2 prev (by omega)]
            rw [hnextR prev (by simp only [MapState.mod_eq_set, MapState.alloc_set]; omega)
              (by omega)]
            rw [hd6 prev (by omega)]
          · -- the prev field of the focus node is untouched after the left clone
            rw [hd2i]
            show (dR.node dst.alloc).prev = (dL.node dst.alloc).prev
            rw [hprevR dst.alloc (by simp only [MapState.mod_eq_set, MapState.alloc_set]; omega) (by omega)]
            rw [hd6i]
        · have hseg2 : segOKb (dR.mod dst.alloc fun n => { n with childR := some dL.alloc })
              dst.alloc tR.inorder next = segOKb dR dst.alloc tR.inorder next := by
            refine segOKb_congr ?_ ?_ ?_
            · intro j hj
              rw [htRsame j hj]
              exact ⟨rfl, rfl⟩
            · rw [hd2i]
            · rw [hd2 next (by omega)]
          rw [hseg2]
          simpa using hsegR
      · refine ⟨fun j hj => ?_, fun j hj hne => ?_, fun j hj hne => ?_⟩
        · rw [hd2 j (by omega)]
          have ha := hfieldR j (by simp only [MapState.mod_eq_set, MapState.alloc_set]; omega)
          rw [hd6 j (by omega)] at ha
          have hb := hfieldL j (by rw [hmeta.1]; omega)
          have hc := holdp.1 j hj
          exact ⟨ha.1.trans (hb.1.trans hc.1), ha.2.1.trans (hb.2.1.trans hc.2.1),
            ha.2.2.1.trans (hb.2.2.1.trans hc.2.2.1),
            ha.2.2.2.1.trans (hb.2.2.2.1.trans hc.2.2.2.1),
            ha.2.2.2.2.1.trans (hb.2.2.2.2.1.trans hc.2.2.2.2.1),
            ha.2.2.2.2.2.trans (hb.2.2.2.2.2.trans hc.2.2.2.2.2)⟩
        · rw [hd2 j (by omega)]
          rw [hprevR j (by simp only [MapState.mod_eq_set, MapState.alloc_set]; omega) hne]
          rw [hd6 j (by omega)]
          rw [hprevL j (by rw [hmeta.1]; omega) (by omega)]
          exact holdp.2.1 j hj hne
        · rw [hd2 j (by omega)]
          rw [hnextR j (by simp only [MapState.mod_eq_set, MapState.alloc_set]; omega)
            (by omega)]
          rw [hd6 j (by omega)]
          rw [hnextL j (by rw [hmeta.1]; omega) hne]
          exact holdp.2.2 j hj hne

lemma clearLoop_eq_walkIds (s : MapState) :
    ∀ (fuel cur : Nat), clearLoop s cur fuel = walkIds s cur fuel := by
  intro fuel
  induction fuel with
  | zero => intro cur; rfl
  | succ fuel ih =>
    intro cur
    simp only [clearLoop, walkIds, ih]

lemma inorder_eq_nil {t : IdTree} (h : t.inorder = []) : t = .nil := by
  cases t with
  | nil => rfl
  | node l i r => simp at h

lemma shape_size_eq {s1 s2 : MapState} :
    ∀ {t2 t1 : IdTree}, shapeOf s2 t2 = shapeOf s1 t1 → t2.size = t1.size := by
  intro t2
  induction t2 with
  | nil => intro t1 h; cases t1 <;> simp_all [shapeOf, IdTree.size]
  | node l i r ihl ihr =>
    intro t1 h
    cases t1 with
    | nil => simp [shapeOf] at h
    | node l1 i1 r1 =>
      simp only [shapeOf, ShTree.node.injEq] at h
      simp only [IdTree.size, ihl h.1, ihr h.2.2.2]

lemma shape_kv_eq {s1 s2 : MapState} :
    ∀ {t2 t1 : IdTree}, shapeOf s2 t2 = shapeOf s1 t1 →
      t2.inorder.map (fun i => (keyOf s2 i, valOf s2 i)) =
        t1.inorder.map (fun i => (keyOf s1 i, valOf s1 i)) := by
  intro t2
  induction t2 with
  | nil => intro t1 h; cases t1 <;> simp_all [shapeOf]
  | node l i r ihl ihr =>
    intro t1 h
    cases t1 with
    | nil => simp [shapeOf] at h
    | node l1 i1 r1 =>
      simp only [shapeOf, ShTree.node.injEq] at h
      simp only [IdTree.inorder_node, List.map_append, List.map_cons]
      rw [ihl h.1, ihr h.2.2.2]
      have : (keyOf s2 i, valOf s2 i) = (keyOf s1 i1, valOf s1 i1) := by
        simp only [keyOf, valOf, h.2.1]
      rw [this]

lemma mapClear_spec (d : MapState) (td : IdTree) (invd : SInv d td) :
    ∃ dC, mapClear d = some dC ∧ dC.alloc = d.alloc ∧
      (dC.node headId).next = tailId ∧ dC.size = 0 ∧ dC.id = d.id := by
  have heq : mapClear d = some
      { d with
        size := 0
        dead := td.inorder ++ d.dead
        node := fun i =>
          if i = headId then { d.node headId with next := tailId }
          else if i = tailId then { d.node tailId with prev := headId }
          else d.node i
        root := none } := by
    unfold mapClear
    rw [clearLoop_eq_walkIds]
    have hw := invd.walk_eq
    unfold mapWalk at hw
    rw [hw]
  refine ⟨_, heq, rfl, ?_, rfl, rfl⟩
  simp [headId, tailId]

lemma mapClone_nonempty_core (s : MapState) (t : IdTree) (inv : SInv s t) (r : Nat)
    (hr : s.root = some r) (dst : MapState) (hda : 2 ≤ dst.alloc) :
    ∃ dst2 t2,
      cloneNode s s.alloc r dst none headId tailId = some (dst2, dst.alloc) ∧
      Extracts dst2 (some dst.alloc) t2 ∧
      shapeOf dst2 t2 = shapeOf s t ∧
      chainOKb dst2 headId t2.inorder = true ∧
      t2.inorder.Nodup ∧
      (∀ j ∈ t2.inorder, 2 ≤ j ∧ j < dst2.alloc) ∧
      dst2.alloc = dst.alloc + t.size ∧ dst2.size = dst.size ∧ dst2.id = dst.id ∧
      dst2.root = dst.root := by
  have hx := inv.extracts
  rw [hr] at hx
  obtain ⟨dst2, t2, heq, halloc, hroot, hsize, hdead, hid, hx2, hbounds, hnodup,
    hshape, hlinks, hseg, hold⟩ :=
    cloneNode_spec s.alloc t r dst none none false headId tailId hx inv.links
      inv.size_lt_alloc (by unfold headId; omega) (by unfold tailId; omega)
      (by unfold headId tailId; omega)
  refine ⟨dst2, t2, heq, hx2, hshape, ?_, hnodup, ?_, halloc, hsize, hid, hroot⟩
  · rw [chainOKb_eq_segOKb]
    exact hseg
  · intro j hj
    have := hbounds j hj
    omega

/-! ## Locating a node and its sequence successor -/

lemma extracts_nil_inv {s : MapState} {o : Option Nat} (h : Extracts s o .nil) : o = none := by
  cases h
  rfl

lemma extracts_root_eq {s : MapState} {o : Option Nat} {l r : IdTree} {i : Nat}
    (h : Extracts s o (.node l i r)) : o = some i := by
  cases h
  rfl

lemma extracts_mem_self {s : MapState} {c : Nat} {t : IdTree}
    (h : Extracts s (some c) t) : c ∈ t.inorder := by
  obtain ⟨l, r, heq, _, _⟩ := extracts_some_inv h
  subst heq
  simp

/-- Locate a member `n` of an extracted, link-consistent tree: `n` roots a
subtree splitting the in-order list, the two subtrees stay link-consistent,
and the cached father of `n` is the external father `f` (exactly when `n`
roots the whole tree) or an internal node outside the subtree that points back
down at `n` on the cached side. -/
lemma links_at_mem {s : MapState} :
    ∀ {t : IdTree} {o f : Option Nat} {w : Bool},
      Extracts s o t → linksOKb s t f w = true → ∀ {n : Nat}, n ∈ t.inorder →
      ∃ la ra pre post,
        Extracts s (some n) (.node la n ra) ∧
        linksOKb s la (some n) false = true ∧
        linksOKb s ra (some n) true = true ∧
        t.inorder = pre ++ la.inorder ++ n :: ra.inorder ++ post ∧
        (((s.node n).father = f ∧ (s.node n).which = w ∧ pre = [] ∧ post = [] ∧
            t = .node la n ra) ∨
          ∃ p, (s.node n).father = some p ∧ (p ∈ pre ∨ p ∈ post) ∧
            (((s.node n).which = false ∧ (s.node p).childL = some n) ∨
              ((s.node n).which = true ∧ (s.node p).childR = some n))) := by
  intro t
  induction t with
  | nil => intro o f w _ _ n hn; simp at hn
  | node l i r ihl ihr =>
    intro o f w hx hlk n hn
    cases hx with
    | node _ _ _ hL hR =>
      obtain ⟨hfi, hwi, hll, hlr⟩ := linksOKb_node_inv hlk
      simp only [IdTree.inorder_node, List.mem_append, List.mem_cons] at hn
      rcases hn with hnl | rfl | hnr
      · obtain ⟨la, ra, pre, post, hxn, hla, hra, hsplit, hdisj⟩ := ihl hL hll hnl
        refine ⟨la, ra, pre, post ++ i :: r.inorder, hxn, hla, hra, ?_, ?_⟩
        · simp only [IdTree.inorder_node, hsplit]
          simp [List.append_assoc]
        · rcases hdisj with ⟨hfn, hwn, hpre, hpost, hleq⟩ | ⟨p, hp, hpm, hback⟩
          · subst hleq
            exact Or.inr ⟨i, hfn, Or.inr (by simp), Or.inl ⟨hwn, extracts_root_eq hL⟩⟩
          · refine Or.inr ⟨p, hp, ?_, hback⟩
            rcases hpm with h | h
            · exact Or.inl h
            · exact Or.inr (by simp [h])
      · exact ⟨l, r, [], [], Extracts.node _ l r hL hR, hll, hlr, by simp,
          Or.inl ⟨hfi, hwi, rfl, rfl, rfl⟩⟩
      · obtain ⟨la, ra, pre, post, hxn, hla, hra, hsplit, hdisj⟩ := ihr hR hlr hnr
        refine ⟨la, ra, l.inorder ++ i :: pre, post, hxn, hla, hra, ?_, ?_⟩
        · simp only [IdTree.inorder_node, hsplit]
          simp [List.append_assoc]
        · rcases hdisj with ⟨hfn, hwn, hpre, hpost, hreq⟩ | ⟨p, hp, hpm, hback⟩
          · subst hreq
            exact Or.inr ⟨i, hfn, Or.inl (by simp), Or.inr ⟨hwn, extracts_root_eq hR⟩⟩
          · refine Or.inr ⟨p, hp, ?_, hback⟩
            rcases hpm with h | h
            · exact Or.inl (by simp [h])
            · exact Or.inr h

/-- The first node of an in-order walk has no left child. -/
lemma head_childL_none {s : MapState} :
    ∀ {t : IdTree} {o : Option Nat}, Extracts s o t →
      ∀ {k : Nat} {rest : List Nat}, t.inorder = k :: rest → (s.node k).childL = none := by
  intro t
  induction t with
  | nil => intro o _ k rest h; simp at h
  | node l i r ihl ihr =>
    intro o hx k rest h
    cases hx with
    | node _ _ _ hL hR =>
      rcases hli : l.inorder with _ | ⟨k2, rest2⟩
      · have hl0 : l = .nil := inorder_eq_nil hli
        subst hl0
        have hcl : (s.node i).childL = none := extracts_nil_inv hL
        simp only [IdTree.inorder_node, IdTree.inorder_nil, List.nil_append,
          List.cons.injEq] at h
        exact h.1 ▸ hcl
      · simp only [IdTree.inorder_node, hli, List.cons_append, List.cons.injEq] at h
        exact ihl hL (by rw [hli, h.1])

lemma segOKb_split {s : MapState} :
    ∀ (l1 : List Nat) {p x : Nat} {l2 : List Nat} {q : Nat},
      segOKb s p (l1 ++ x :: l2) q = true →
      segOKb s p l1 x = true ∧ segOKb s x l2 q = true := by
  intro l1
  induction l1 with
  | nil =>
    intro p x l2 q h
    simp only [List.nil_append, segOKb, Bool.and_eq_true, beq_iff_eq] at h
    obtain ⟨⟨h1, h2⟩, h3⟩ := h
    exact ⟨by simp [segOKb, h1, h2], h3⟩
  | cons i l ih =>
    intro p x l2 q h
    simp only [List.cons_append, segOKb, Bool.and_eq_true, beq_iff_eq] at h
    obtain ⟨⟨h1, h2⟩, h3⟩ := h
    obtain ⟨h4, h5⟩ := ih h3
    exact ⟨by simp [segOKb, h1, h2, h4], h5⟩

lemma segOKb_last_prev {s : MapState} :
    ∀ (l1 : List Nat) {p x : Nat}, segOKb s p l1 x = true →
      ((s.node x).prev = p ∧ l1 = []) ∨ (s.node x).prev ∈ l1 := by
  intro l1
  induction l1 with
  | nil =>
    intro p x h
    simp only [segOKb, Bool.and_eq_true, beq_iff_eq] at h
    exact Or.inl ⟨h.2, rfl⟩
  | cons i l ih =>
    intro p x h
    simp only [segOKb, Bool.and_eq_true, beq_iff_eq] at h
    rcases ih h.2 with ⟨hp, hl⟩ | hm
    · exact Or.inr (by simp [hp])
    · exact Or.inr (by simp [hm])

lemma segOKb_head_next {s : MapState} {p x : Nat} {l2 : List Nat}
    (h : segOKb s p l2 x = true) :
    ((s.node p).next = x ∧ l2 = []) ∨ (s.node p).next ∈ l2 := by
  cases l2 with
  | nil =>
    simp only [segOKb, Bool.and_eq_true, beq_iff_eq] at h
    exact Or.inl ⟨h.1, rfl⟩
  | cons i l =>
    simp only [segOKb, Bool.and_eq_true, beq_iff_eq] at h
    exact Or.inr (by simp [h.1.1])

lemma ne_of_nodup_append {l1 l2 : List Nat} {x y : Nat}
    (hd : (l1 ++ l2).Nodup) (hx : x ∈ l1) (hy : y ∈ l2) : x ≠ y := by
  intro h
  subst h
  exact ((List.nodup_append.mp hd).2.2) hx hy

lemma nodup_middle_eq {b : Nat} :
    ∀ {l1 r1 l2 r2 : List Nat},
      (l1 ++ b :: r1).Nodup → l1 ++ b :: r1 = l2 ++ b :: r2 → l1 = l2 ∧ r1 = r2 := by
  intro l1
  induction l1 with
  | nil =>
    intro r1 l2 r2 hd h
    cases l2 with
    | nil => simpa using h
    | cons c l2 =>
      exfalso
      simp only [List.nil_append, List.cons_append, List.cons.injEq] at h
      have hb : b ∈ r1 := by
        rw [h.2]
        simp
      exact (List.nodup_cons.mp hd).1 hb
  | cons c l1 ih =>
    intro r1 l2 r2 hd h
    cases l2 with
    | nil =>
      exfalso
      simp only [List.cons_append, List.nil_append, List.cons.injEq] at h
      have hni := (List.nodup_cons.mp hd).1
      rw [h.1] at hni
      exact hni (by simp)
    | cons c2 l2 =>
      simp only [List.cons_append, List.cons.injEq] at h
      have hd2 := (List.nodup_cons.mp hd).2
      obtain ⟨e1, e2⟩ := ih hd2 h.2
      exact ⟨by rw [h.1, e1], e2⟩

/-- In a structurally valid container, a node `n` with two children and its
sequence successor `next` are adjacent in the in-order walk and satisfy every
neighbourhood side condition used by `swap_node_links`. -/
lemma erase_swap_context {s : MapState} {t : IdTree} {n : Nat} (inv : SInv s t)
    (hmem : n ∈ t.inorder)
    (hcl : (s.node n).childL ≠ none) (hcr : (s.node n).childR ≠ none) :
    ∃ l1 l2, t.inorder = l1 ++ n :: (s.node n).next :: l2 ∧
      n ≠ (s.node n).next ∧
      (s.node ((s.node n).next)).prev = n ∧
      (s.node n).prev ≠ n ∧ (s.node n).prev ≠ (s.node n).next ∧
      (s.node ((s.node n).next)).next ≠ (s.node n).next ∧
      (s.node ((s.node n).next)).next ≠ n ∧
      (s.node n).father ≠ some n ∧ (s.node n).father ≠ some ((s.node n).next) ∧
      (s.node ((s.node n).next)).father ≠ some ((s.node n).next) ∧
      (s.node n).childL ≠ some n ∧ (s.node n).childL ≠ some ((s.node n).next) ∧
      (s.node n).childR ≠ some n ∧
      (s.node ((s.node n).next)).childL = none ∧
      (s.node ((s.node n).next)).childR ≠ some ((s.node n).next) ∧
      (s.node ((s.node n).next)).childR ≠ some n ∧
      ((s.node ((s.node n).next)).father = some n →
        (s.node n).childR = some ((s.node n).next) ∧
          (s.node ((s.node n).next)).which = true) ∧
      ((s.node n).childR = some ((s.node n).next) →
        (s.node ((s.node n).next)).father = some n) := by
  obtain ⟨la, ra, pre, post, hxn, hla, hra, hsplit, hdisj⟩ :=
    links_at_mem inv.extracts inv.links hmem
  obtain ⟨la2, ra2, heq2, hL2, hR2⟩ := extracts_some_inv hxn
  cases heq2
  rcases hcrv : (s.node n).childR with _ | c
  · exact absurd hcrv hcr
  rw [hcrv] at hR2
  obtain ⟨rb1, rb2, herb, _, _⟩ := extracts_some_inv hR2
  have hrane : ra.inorder ≠ [] := by
    intro hnil
    rw [herb] at hnil
    simp at hnil
  obtain ⟨k, rb, hk⟩ := List.exists_cons_of_ne_nil hrane
  have hre : t.inorder = (pre ++ la.inorder) ++ n :: k :: (rb ++ post) := by
    rw [hsplit, hk]
    simp [List.append_assoc]
  have hseg : segOKb s headId t.inorder tailId = true := by
    rw [← chainOKb_eq_segOKb]
    exact inv.chain
  rw [hre] at hseg
  obtain ⟨seg1, seg2⟩ := segOKb_split (pre ++ la.inorder) hseg
  simp only [segOKb, Bool.and_eq_true, beq_iff_eq] at seg2
  obtain ⟨⟨hnext, hkprev⟩, seg3⟩ := seg2
  have hnd := inv.nodup
  rw [hre] at hnd
  have hnd0 := inv.nodup
  rw [hsplit] at hnd0
  have hnd2 := (List.nodup_append.mp hnd).2.1
  have hn_notin := (List.nodup_cons.mp hnd2).1
  have hnk : n ≠ k := by
    intro h
    exact hn_notin (by simp [h])
  have h2n : 2 ≤ n := (inv.live_mem hmem).1
  have hkmem : k ∈ t.inorder := by
    rw [hre]
    simp
  have h2k : 2 ≤ k := (inv.live_mem hkmem).1
  have hkra : k ∈ ra.inorder := by
    rw [hk]
    simp
  have hra_nd : ra.inorder.Nodup := by
    have h1 : (k :: (rb ++ post)).Nodup := (List.nodup_cons.mp hnd2).2
    have h2 : (ra.inorder ++ post).Nodup := by
      rw [hk]
      simpa using h1
    exact h2.of_append_left
  have hprev_facts : (s.node n).prev ≠ n ∧ (s.node n).prev ≠ k := by
    rcases segOKb_last_prev _ seg1 with ⟨hp0, _⟩ | hpmem
    · constructor <;> (rw [hp0]; unfold headId; omega)
    · exact ⟨ne_of_nodup_append hnd hpmem (by simp),
        ne_of_nodup_append hnd hpmem (by simp)⟩
  have hnd3 : (((pre ++ la.inorder) ++ [n, k]) ++ (rb ++ post)).Nodup := by
    simpa [List.append_assoc] using hnd
  have hknext_facts : (s.node k).next ≠ k ∧ (s.node k).next ≠ n := by
    rcases segOKb_head_next seg3 with ⟨ht, _⟩ | hm
    · constructor <;> (rw [ht]; unfold tailId; omega)
    · exact ⟨(ne_of_nodup_append hnd3 (by simp) hm).symm,
        (ne_of_nodup_append hnd3 (by simp) hm).symm⟩
  have hndA : (pre ++ (la.inorder ++ (n :: (ra.inorder ++ post)))).Nodup := by
    simpa [List.append_assoc] using hnd0
  have hfn_facts : (s.node n).father ≠ some n ∧ (s.node n).father ≠ some k := by
    rcases hdisj with ⟨hf0, _⟩ | ⟨p, hp, hpm, _⟩
    · rw [hf0]
      simp
    · rw [hp]
      simp only [ne_eq, Option.some.injEq]
      constructor
      · intro e
        subst e
        rcases hpm with h | h
        · exact ne_of_nodup_append hndA h (by simp) rfl
        · exact ne_of_nodup_append hnd0 (by simp) h rfl
      · intro e
        subst e
        rcases hpm with h | h
        · exact ne_of_nodup_append hndA h (by simp [hkra]) rfl
        · exact ne_of_nodup_append hnd0 (by simp [hkra]) h rfl
  have hclL_facts : (s.node n).childL ≠ some n ∧ (s.node n).childL ≠ some k := by
    rcases hclv : (s.node n).childL with _ | cl
    · simp
    · rw [hclv] at hL2
      have hclm : cl ∈ la.inorder := extracts_mem_self hL2
      simp only [ne_eq, Option.some.injEq]
      constructor
      · intro e
        exact ne_of_nodup_append hnd (by simp [hclm]) (by simp) e
      · intro e
        exact ne_of_nodup_append hnd (by simp [hclm]) (by simp) e
  have hcrn : (s.node n).childR ≠ some n := by
    rw [hcrv]
    simp only [ne_eq, Option.some.injEq]
    intro e
    apply hn_notin
    have hcm : c ∈ ra.inorder := by
      rw [herb]
      simp
    rw [hk] at hcm
    rw [← e]
    rcases List.mem_cons.mp hcm with h | h
    · simp [h]
    · simp [h]
  have hkclnone : (s.node k).childL = none := head_childL_none hR2 hk
  obtain ⟨lb, rbt, pre2, post2, hxk, hlb, hrbt, hsplit2, hdisj2⟩ :=
    links_at_mem hR2 hra hkra
  obtain ⟨lb2, rbt2, heq3, hkL, hkR⟩ := extracts_some_inv hxk
  cases heq3
  have hnra : n ∉ ra.inorder := by
    intro h
    apply hn_notin
    rw [hk] at h
    rcases List.mem_cons.mp h with h2 | h2
    · simp [h2]
    · simp [h2]
  have hranodup2 : ((pre2 ++ lb.inorder ++ [k]) ++ (rbt.inorder ++ post2)).Nodup := by
    have h1 := hra_nd
    rw [hsplit2] at h1
    simpa [List.append_assoc] using h1
  have hra_nd2 : (pre2 ++ (lb.inorder ++ k :: rbt.inorder ++ post2)).Nodup := by
    have h1 := hra_nd
    rw [hsplit2] at h1
    simpa [List.append_assoc] using h1
  have hra_nd3 : ((pre2 ++ lb.inorder ++ k :: rbt.inorder) ++ post2).Nodup := by
    have h1 := hra_nd
    rw [hsplit2] at h1
    simpa [List.append_assoc] using h1
  have hkcr_facts : (s.node k).childR ≠ some k ∧ (s.node k).childR ≠ some n := by
    rcases hkrv : (s.node k).childR with _ | ck
    · simp
    · rw [hkrv] at hkR
      have hckm : ck ∈ rbt.inorder := extracts_mem_self hkR
      simp only [ne_eq, Option.some.injEq]
      constructor
      · intro e
        exact ne_of_nodup_append hranodup2 (by simp) (by simp [hckm]) e.symm
      · intro e
        apply hnra
        rw [hsplit2, ← e]
        simp [hckm]
  have hkf : (s.node k).father ≠ some k := by
    rcases hdisj2 with ⟨hf0, _⟩ | ⟨p, hp, hpm, _⟩
    · rw [hf0]
      simp only [ne_eq, Option.some.injEq]
      exact hnk
    · rw [hp]
      simp only [ne_eq, Option.some.injEq]
      intro e
      subst e
      rcases hpm with h | h
      · exact ne_of_nodup_append hra_nd2 h (by simp) rfl
      · exact ne_of_nodup_append hra_nd3 (by simp) h rfl
  have hcoh1 : (s.node k).father = some n →
      (s.node n).childR = some k ∧ (s.node k).which = true := by
    intro hfk
    rcases hdisj2 with ⟨hf0, hw0, _, _, hraeq⟩ | ⟨p, hp, hpm, _⟩
    · constructor
      · injection herb.symm.trans hraeq with e1 e2 e3
        rw [hcrv, e2]
      · exact hw0
    · rw [hp] at hfk
      injection hfk with e
      subst e
      exfalso
      apply hnra
      rcases hpm with h | h
      · rw [hsplit2]
        simp [h]
      · rw [hsplit2]
        simp [h]
  have hcoh2 : (s.node n).childR = some k → (s.node k).father = some n := by
    intro h
    rw [hcrv] at h
    injection h with e
    subst e
    rw [herb] at hra
    exact (linksOKb_node_inv hra).1
  rw [hnext, ← hcrv]
  exact ⟨pre ++ la.inorder, rb ++ post, hre, hnk, hkprev, hprev_facts.1, hprev_facts.2,
    hknext_facts.1, hknext_facts.2, hfn_facts.1, hfn_facts.2, hkf, hclL_facts.1,
    hclL_facts.2, hcrn, hkclnone, hkcr_facts.1, hkcr_facts.2, hcoh1, hcoh2⟩

/-! ## The insert path on an absent key -/

lemma insertLoop_absent {s : MapState} :
    ∀ {t : IdTree} {cur : Nat} {k : Int},
      Extracts s (some cur) t → k ∉ t.inorder.map (keyOf s) →
      ∀ {fuel : Nat}, t.size < fuel →
        ∃ n w, insertLoop s k cur fuel = some (.leaf n w) ∧ n ∈ t.inorder ∧
          (s.node n).child w = none := by
  intro t
  induction t with
  | nil => intro cur k hx; cases hx
  | node l c r ihl ihr =>
    intro cur k hx hk fuel hf
    obtain ⟨l2, r2, heq, hL, hR⟩ := extracts_some_inv hx
    cases heq
    cases fuel with
    | zero => simp [IdTree.size] at hf
    | succ fuel =>
      have hkne : k ≠ keyOf s c := by
        intro heq
        exact hk (by simp [heq])
      rcases lt_trichotomy k (keyOf s c) with hlt | heq2 | hgt
      · have hwhich : decide (keyOf s c < k) = false := by
          simp
          omega
        have hknl : k ∉ l.inorder.map (keyOf s) := by
          intro hm
          apply hk
          simp only [IdTree.inorder_node, List.map_append, List.map_cons,
            List.mem_append, List.mem_cons]
          exact Or.inl hm
        rcases hcl : (s.node c).childL with _ | cl
        · refine ⟨c, false, ?_, by simp, by simp [Node.child, hcl]⟩
          simp only [insertLoop, hwhich]
          rw [if_neg (by simp; omega)]
          simp [Node.child, hcl]
        · rw [hcl] at hL
          obtain ⟨n, w, hrec, hmem, hchild⟩ := @ihl cl k hL hknl fuel
            (by simp [IdTree.size] at hf ⊢; omega)
          refine ⟨n, w, ?_, by simp [hmem], hchild⟩
          simp only [insertLoop, hwhich]
          rw [if_neg (by simp; omega)]
          simpa [Node.child, hcl] using hrec
      · exact absurd heq2.symm hkne.symm
      · have hwhich : decide (keyOf s c < k) = true := by
          simp
          omega
        have hknr : k ∉ r.inorder.map (keyOf s) := by
          intro hm
          apply hk
          simp only [IdTree.inorder_node, List.map_append, List.map_cons,
            List.mem_append, List.mem_cons]
          exact Or.inr (Or.inr hm)
        rcases hcr : (s.node c).childR with _ | cr
        · refine ⟨c, true, ?_, by simp, by simp [Node.child, hcr]⟩
          simp only [insertLoop, hwhich]
          rw [if_neg (by simp)]
          simp [Node.child, hcr]
        · rw [hcr] at hR
          obtain ⟨n, w, hrec, hmem, hchild⟩ := @ihr cr k hR hknr fuel
            (by simp [IdTree.size] at hf ⊢; omega)
          refine ⟨n, w, ?_, by simp [hmem], hchild⟩
          simp only [insertLoop, hwhich]
          rw [if_neg (by simp)]
          simpa [Node.child, hcr] using hrec

lemma Veq.v_insert_fix_right {s : MapState} :
    ∀ (fuel : Nat) {X : MapState}, Veq s X → ∀ (target : Nat),
      Veq s (insert_fix X target fuel) := by
  intro fuel
  induction fuel with
  | zero => intro X h target; exact h
  | succ fuel ih =>
    intro X h target
    unfold insert_fix
    split
    · exact h.v_mod_right fun n => rfl
    · split
      · exact h
      · simp only []
        split
        · split
          · apply Veq.v_rotate_right
            apply Veq.v_mod_right
            apply Veq.v_mod_right
            · exact h
            · exact fun n => rfl
            · exact fun n => rfl
          · apply Veq.v_rotate_right
            apply Veq.v_rotate_right
            apply Veq.v_mod_right
            apply Veq.v_mod_right
            · exact h
            · exact fun n => rfl
            · exact fun n => rfl
        · apply ih
          apply Veq.v_mod_right
          apply Veq.v_mod_right
          apply Veq.v_mod_right
          · exact h
          · exact fun n => rfl
          · exact fun n => rfl
          · exact fun n => rfl

lemma MEq.m_insert_fix_right {s : MapState} :
    ∀ (fuel : Nat) {X : MapState}, MEq s X → ∀ (target : Nat),
      MEq s (insert_fix X target fuel) := by
  intro fuel
  induction fuel with
  | zero => intro X h target; exact h
  | succ fuel ih =>
    intro X h target
    unfold insert_fix
    split
    · exact h.m_mod_right
    · split
      · exact h
      · simp only []
        split
        · split
          · apply MEq.m_rotate_right
            apply MEq.m_mod_right
            apply MEq.m_mod_right
            exact h
          · apply MEq.m_rotate_right
            apply MEq.m_rotate_right
            apply MEq.m_mod_right
            apply MEq.m_mod_right
            exact h
        · apply ih
          apply MEq.m_mod_right
          apply MEq.m_mod_right
          apply MEq.m_mod_right
          exact h

lemma newNode_spec (s : MapState) (kv : Int × Int) (prev next : Nat) (father : Option Nat)
    (w : Bool) :
    (newNode s kv prev next father w).2 = s.alloc ∧
    ((newNode s kv prev next father w).1.node s.alloc).value = some kv ∧
    (newNode s kv prev next father w).1.size = s.size ∧
    (newNode s kv prev next father w).1.alloc = s.alloc + 1 ∧
    (newNode s kv prev next father w).1.dead = s.dead ∧
    (newNode s kv prev next father w).1.id = s.id := by
  unfold newNode
  simp only []
  refine ⟨?_, ?_, ?_, ?_, ?_, ?_⟩
  · trivial
  · rw [(Veq.v_refl.v_update_nearby_right s.alloc) s.alloc]
    simp
  · rw [(update_nearby_meta _ _).2.1]
    rfl
  · rw [(update_nearby_meta _ _).2.2.1]
    rfl
  · rw [(update_nearby_meta _ _).2.2.2.1]
    rfl
  · rw [(update_nearby_meta _ _).2.2.2.2]
    rfl

/-- `__insert` on an absent key allocates a fresh node holding the pair and
increments the size by one. -/
lemma insert_absent_spec {s : MapState} {t : IdTree} (inv : SInv s t) {k : Int} (v : Int)
    (hk : k ∉ t.inorder.map (keyOf s)) :
    ∃ s1 n, insertImpl s k v = some (s1, n, true) ∧ s1.size = s.size + 1 ∧
      keyOf s1 n = k ∧ valOf s1 n = v := by
  have hx := inv.extracts
  unfold insertImpl
  rcases hroot : s.root with _ | r
  · refine ⟨_, _, rfl, ?_, ?_, ?_⟩
    · rw [(MEq.m_refl.m_insert_fix_right _ _).1]
      show (newNode s (k, v) headId tailId none false).1.size + 1 = s.size + 1
      rw [(newNode_spec s (k, v) headId tailId none false).2.2.1]
    · unfold keyOf
      rw [(Veq.v_refl.v_insert_fix_right _ _) _]
      show (((newNode s (k, v) headId tailId none false).1.node
        (newNode s (k, v) headId tailId none false).2).value.getD (0, 0)).1 = k
      rw [(newNode_spec s (k, v) headId tailId none false).1,
        (newNode_spec s (k, v) headId tailId none false).2.1]
      rfl
    · unfold valOf
      rw [(Veq.v_refl.v_insert_fix_right _ _) _]
      show (((newNode s (k, v) headId tailId none false).1.node
        (newNode s (k, v) headId tailId none false).2).value.getD (0, 0)).2 = v
      rw [(newNode_spec s (k, v) headId tailId none false).1,
        (newNode_spec s (k, v) headId tailId none false).2.1]
      rfl
  · rw [hroot] at hx
    obtain ⟨cur, w, hloop, hmem, hchild⟩ :=
      insertLoop_absent hx hk (inv.size_lt_alloc)
    simp only [hloop]
    refine ⟨_, _, rfl, ?_, ?_, ?_⟩
    · rw [(MEq.m_refl.m_insert_fix_right _ _).1]
      show (newNode s (k, v) _ _ (some cur) w).1.size + 1 = s.size + 1
      rw [(newNode_spec s (k, v) _ _ (some cur) w).2.2.1]
    · unfold keyOf
      rw [(Veq.v_refl.v_insert_fix_right _ _) _]
      show (((newNode s (k, v) _ _ (some cur) w).1.node
        (newNode s (k, v) _ _ (some cur) w).2).value.getD (0, 0)).1 = k
      rw [(newNode_spec s (k, v) _ _ (some cur) w).1,
        (newNode_spec s (k, v) _ _ (some cur) w).2.1]
      rfl
    · unfold valOf
      rw [(Veq.v_refl.v_insert_fix_right _ _) _]
      show (((newNode s (k, v) _ _ (some cur) w).1.node
        (newNode s (k, v) _ _ (some cur) w).2).value.getD (0, 0)).2 = v
      rw [(newNode_spec s (k, v) _ _ (some cur) w).1,
        (newNode_spec s (k, v) _ _ (some cur) w).2.1]
      rfl

/-! ## The erase path: bookkeeping and value preservation -/

lemma Veq.withDead {s X : MapState} (h : Veq s X) {d : List Nat} :
    Veq s { X with dead := d } := h

lemma MEq.m_link_node_right {s X : MapState} (h : MEq s X) (a b : Nat) :
    MEq s (link_node X a b) := h

lemma Veq.v_erase_fix_final_right {s X : MapState} (h : Veq s X) (target father : Nat) :
    Veq s (erase_fix_final X target father) := by
  unfold erase_fix_final
  simp only []
  apply Veq.v_rotate_right
  apply Veq.v_mod_right
  apply Veq.v_mod_right
  apply Veq.v_mod_right
  · exact h
  · exact fun n => rfl
  · exact fun n => rfl
  · exact fun n => rfl

lemma Veq.v_erase_fix_last_right {s X : MapState} (h : Veq s X) (target father : Nat) :
    Veq s (erase_fix_last X target father) := by
  unfold erase_fix_last
  simp only []
  split
  · apply Veq.v_mod_right
    apply Veq.v_mod_right
    · exact h
    · exact fun n => rfl
    · exact fun n => rfl
  · apply Veq.v_erase_fix_final_right
    apply Veq.v_ite_state
    · apply Veq.v_rotate_right
      apply Veq.v_mod_right
      apply Veq.v_mod_right
      · exact h
      · exact fun n => rfl
      · exact fun n => rfl
    · exact h

lemma Veq.v_erase_fix_right {s : MapState} :
    ∀ (fuel : Nat) {X : MapState}, Veq s X → ∀ (target : Nat) (r : Bool),
      Veq s (erase_fix X target r fuel) := by
  intro fuel
  induction fuel with
  | zero => intro X h target r; exact h
  | succ fuel ih =>
    intro X h target r
    unfold erase_fix
    simp only []
    split
    · exact h
    · split
      · exact h.v_mod_right fun n => rfl
      · split
        · exact h.v_mod_right fun n => rfl
        · split
          · apply ih
            apply Veq.v_mod_right
            · exact h
            · exact fun n => rfl
          · apply Veq.v_erase_fix_last_right
            apply Veq.v_ite_state
            · apply Veq.v_rotate_right
              apply Veq.v_mod_right
              apply Veq.v_mod_right
              · exact h
              · exact fun n => rfl
              · exact fun n => rfl
            · exact h

lemma MEq.m_erase_fix_final_right {s X : MapState} (h : MEq s X) (target father : Nat) :
    MEq s (erase_fix_final X target father) := by
  unfold erase_fix_final
  simp only []
  apply MEq.m_rotate_right
  apply MEq.m_mod_right
  apply MEq.m_mod_right
  apply MEq.m_mod_right
  exact h

lemma MEq.m_erase_fix_last_right {s X : MapState} (h : MEq s X) (target father : Nat) :
    MEq s (erase_fix_last X target father) := by
  unfold erase_fix_last
  simp only []
  split
  · apply MEq.m_mod_right
    apply MEq.m_mod_right
    exact h
  · apply MEq.m_erase_fix_final_right
    apply MEq.m_ite_state
    · apply MEq.m_rotate_right
      apply MEq.m_mod_right
      apply MEq.m_mod_right
      exact h
    · exact h

lemma MEq.m_erase_fix_right {s : MapState} :
    ∀ (fuel : Nat) {X : MapState}, MEq s X → ∀ (target : Nat) (r : Bool),
      MEq s (erase_fix X target r fuel) := by
  intro fuel
  induction fuel with
  | zero => intro X h target r; exact h
  | succ fuel ih =>
    intro X h target r
    unfold erase_fix
    simp only []
    split
    · exact h
    · split
      · exact h.m_mod_right
      · split
        · exact h.m_mod_right
        · split
          · apply ih
            apply MEq.m_mod_right
            exact h
          · apply MEq.m_erase_fix_last_right
            apply MEq.m_ite_state
            · apply MEq.m_rotate_right
              apply MEq.m_mod_right
              apply MEq.m_mod_right
              exact h
            · exact h

lemma Veq.eraseRest_right {s X : MapState} (h : Veq s X) (target : Nat) :
    Veq s (eraseRest X target) := by
  unfold eraseRest
  simp only []
  apply Veq.withDead
  split
  · apply Veq.v_mod_right
    · apply Veq.v_ite_state
      · apply Veq.v_withRoot
        apply Veq.v_link_node_right
        apply Veq.v_erase_fix_right
        exact h
      · apply Veq.v_mod_right
        · apply Veq.v_link_node_right
          apply Veq.v_erase_fix_right
          exact h
        · exact fun n => Node.setChild_value n _ _
    · exact fun n => rfl
  · apply Veq.v_ite_state
    · apply Veq.v_withRoot
      apply Veq.v_link_node_right
      apply Veq.v_erase_fix_right
      exact h
    · apply Veq.v_mod_right
      · apply Veq.v_link_node_right
        apply Veq.v_erase_fix_right
        exact h
      · exact fun n => Node.setChild_value n _ _

lemma meta_dead_cons {X Y : MapState} (h : MEq X Y) (target : Nat) :
    ({ Y with dead := target :: Y.dead } : MapState).size = X.size ∧
    ({ Y with dead := target :: Y.dead } : MapState).alloc = X.alloc ∧
    ({ Y with dead := target :: Y.dead } : MapState).dead = target :: X.dead ∧
    ({ Y with dead := target :: Y.dead } : MapState).id = X.id :=
  ⟨h.1, h.2.1, by show target :: Y.dead = target :: X.dead; rw [h.2.2.1], h.2.2.2⟩

lemma eraseRest_meta (X : MapState) (target : Nat) :
    (eraseRest X target).size = X.size ∧ (eraseRest X target).alloc = X.alloc ∧
      (eraseRest X target).dead = target :: X.dead ∧ (eraseRest X target).id = X.id := by
  unfold eraseRest
  simp only []
  apply meta_dead_cons
  split
  · apply MEq.m_mod_right
    apply MEq.m_ite_state
    · apply MEq.m_withRoot
      apply MEq.m_link_node_right
      apply MEq.m_erase_fix_right
      exact MEq.m_refl
    · apply MEq.m_mod_right
      apply MEq.m_link_node_right
      apply MEq.m_erase_fix_right
      exact MEq.m_refl
  · apply MEq.m_ite_state
    · apply MEq.m_withRoot
      apply MEq.m_link_node_right
      apply MEq.m_erase_fix_right
      exact MEq.m_refl
    · apply MEq.m_mod_right
      apply MEq.m_link_node_right
      apply MEq.m_erase_fix_right
      exact MEq.m_refl

lemma eraseImpl_meta (s : MapState) (n : Nat) :
    (eraseImpl s n).size = s.size - 1 ∧ (eraseImpl s n).alloc = s.alloc ∧
      (eraseImpl s n).dead = n :: s.dead ∧ (eraseImpl s n).id = s.id := by
  unfold eraseImpl
  simp only []
  obtain ⟨e1, e2, e3, e4⟩ := eraseRest_meta
    (if ((s.node n).childL ≠ none ∧ (s.node n).childR ≠ none) then
      swap_node { s with size := s.size - 1 } n ((s.node n).next)
    else { s with size := s.size - 1 }) n
  exact ⟨e1.trans (by split_ifs <;> first | exact (swap_node_meta _ _ _).1 | rfl),
    e2.trans (by split_ifs <;> first | exact (swap_node_meta _ _ _).2.1 | rfl),
    e3.trans (by split_ifs <;> first | (rw [(swap_node_meta _ _ _).2.2.1]) | rfl),
    e4.trans (by split_ifs <;> first | exact (swap_node_meta _ _ _).2.2.2 | rfl)⟩

lemma eraseImpl_value (s : MapState) (n : Nat) (j : Nat) :
    ((eraseImpl s n).node j).value = (s.node j).value := by
  have hbase : Veq s (if ((s.node n).childL ≠ none ∧ (s.node n).childR ≠ none) then
      swap_node { s with size := s.size - 1 } n ((s.node n).next)
    else { s with size := s.size - 1 }) := by
    apply Veq.v_ite_state
    · apply Veq.v_swap_node_right
      exact fun j2 => rfl
    · exact fun j2 => rfl
  exact (hbase.eraseRest_right n) j

/-! ## Claim theorems -/

/-- **C8**: copy construction produces a fresh map that iterates over exactly
the same ordered (key, value) sequence as the source, with the tree structure
and node colors preserved (`shapeOf`); copy assignment from a distinct source
(`this != &other`, flag `false`) does the same.  The copy is built in a fresh
state, so no mutation of either container can reach the other. -/
theorem copy_preserves_sequence (s : MapState) (t : IdTree) (inv : SInv s t)
    (d : MapState) (td : IdTree) (invd : SInv d td) (newId : Nat) :
    (∃ c t2, mapClone s newId = some c ∧ Extracts c c.root t2 ∧
      shapeOf c t2 = shapeOf s t ∧ mapWalkKV c = mapWalkKV s ∧ c.size = s.size) ∧
    (∃ c2, mapAssign d s false = some c2 ∧ mapWalkKV c2 = mapWalkKV s ∧
      c2.size = s.size) := by
  obtain ⟨dC, hclear, hCalloc, hChead, hCsize, hCid⟩ := mapClear_spec d td invd
  have hCalloc2 : 2 ≤ dC.alloc := by
    rw [hCalloc]
    exact invd.alloc2
  by_cases hsz : s.size = 0
  · have ht : t = .nil := by
      apply inorder_eq_nil
      have := inv.size_eq
      rw [hsz] at this
      exact List.length_eq_zero.mp this.symm
    subst ht
    have hwkv : mapWalkKV s = some [] := by
      unfold mapWalkKV
      rw [inv.walk_eq]
      rfl
    constructor
    · refine ⟨emptyMap newId, .nil, ?_, ?_, rfl, ?_, ?_⟩
      · unfold mapClone
        rw [if_pos hsz]
      · exact .nil
      · rw [hwkv]
        rfl
      · simp [emptyMap, hsz]
    · refine ⟨{ dC with size := s.size }, ?_, ?_, rfl⟩
      · unfold mapAssign
        rw [if_neg (by simp)]
        rw [hclear]
        simp only []
        rw [if_pos hsz]
      · rw [hwkv]
        unfold mapWalkKV mapWalk
        obtain ⟨k, hk⟩ : ∃ k, ({ dC with size := s.size } : MapState).alloc = k + 1 :=
          ⟨dC.alloc - 1, by show dC.alloc = dC.alloc - 1 + 1; omega⟩
        rw [hk]
        have hh : (({ dC with size := s.size } : MapState).node headId).next = tailId :=
          hChead
        rw [hh]
        simp [walkIds, tailId]
  · rcases hroot : s.root with _ | r
    · exfalso
      have hx := inv.extracts
      rw [hroot] at hx
      cases hx
      have := inv.size_eq
      simp at this
      exact hsz this
    · constructor
      · obtain ⟨dst2, t2, heq, hx2, hshape, hchain, hnodup, hbounds, halloc, hsize,
          hid, hroot2⟩ :=
          mapClone_nonempty_core s t inv r hroot { emptyMap newId with size := s.size }
            (by simp [emptyMap])
        have hallocEmpty : ({ emptyMap newId with size := s.size } : MapState).alloc = 2 :=
          rfl
        rw [hallocEmpty] at heq halloc
        refine ⟨{ dst2 with root := some 2 }, t2, ?_, ?_, ?_, ?_, ?_⟩
        · unfold mapClone
          rw [if_neg hsz, hroot]
          simp only []
          rw [heq]
        · show Extracts _ (some 2) t2
          refine extracts_congr hx2 fun i _ => ⟨rfl, rfl⟩
        · rw [hshape.symm]
          refine shapeOf_congr fun i _ => ⟨rfl, rfl⟩
        · have hlen : t2.inorder.length + 2 ≤ dst2.alloc :=
            length_le_of_nodup hnodup hbounds (by omega)
          have hwalk : mapWalk { dst2 with root := some 2 } = some t2.inorder := by
            unfold mapWalk
            have hcg : chainOKb { dst2 with root := some 2 } headId t2.inorder = true := by
              rw [@chainOKb_congr dst2 { dst2 with root := some 2 } t2.inorder headId
                (fun i _ => ⟨rfl, rfl⟩) rfl rfl]
              exact hchain
            apply chain_walkIds hcg
            · intro i hi
              have := hbounds i hi
              unfold tailId
              omega
            · show t2.inorder.length < dst2.alloc
              omega
          unfold mapWalkKV
          rw [hwalk, inv.walk_eq]
          show some (t2.inorder.map fun i => (keyOf dst2 i, valOf dst2 i)) =
            some (t.inorder.map fun i => (keyOf s i, valOf s i))
          rw [shape_kv_eq hshape]
        · show dst2.size = s.size
          rw [hsize]
      · obtain ⟨dst2, t2, heq, hx2, hshape, hchain, hnodup, hbounds, halloc, hsize,
          hid, hroot2⟩ :=
          mapClone_nonempty_core s t inv r hroot { dC with size := s.size }
            (by exact hCalloc2)
        refine ⟨{ dst2 with root := some dC.alloc }, ?_, ?_, ?_⟩
        · unfold mapAssign
          rw [if_neg (by simp)]
          rw [hclear]
          simp only []
          rw [if_neg hsz, hroot]
          simp only []
          rw [heq]
        · have hlen : t2.inorder.length + 2 ≤ dst2.alloc :=
            length_le_of_nodup hnodup hbounds
              (by rw [halloc]; show 2 ≤ dC.alloc + t.size; omega)
          have hwalk : mapWalk { dst2 with root := some dC.alloc } = some t2.inorder := by
            unfold mapWalk
            have hcg : chainOKb { dst2 with root := some dC.alloc } headId t2.inorder =
                true := by
              rw [@chainOKb_congr dst2 { dst2 with root := some dC.alloc } t2.inorder headId
                (fun i _ => ⟨rfl, rfl⟩) rfl rfl]
              exact hchain
            apply chain_walkIds hcg
            · intro i hi
              have := hbounds i hi
              unfold tailId
              omega
            · show t2.inorder.length < dst2.alloc
              omega
          unfold mapWalkKV
          rw [hwalk, inv.walk_eq]
          show some (t2.inorder.map fun i => (keyOf dst2 i, valOf dst2 i)) =
            some (t.inorder.map fun i => (keyOf s i, valOf s i))
          rw [shape_kv_eq hshape]
        · show dst2.size = s.size
          rw [hsize]

/-- Witness for C8 on the concrete map `exMap3`. -/
theorem copy_preserves_sequence_witness :
    (∃ c t2, mapClone exMap3 1 = some c ∧ Extracts c c.root t2 ∧
      shapeOf c t2 = shapeOf exMap3 exTree3 ∧ mapWalkKV c = mapWalkKV exMap3 ∧
      c.size = exMap3.size) ∧
    (∃ c2, mapAssign exMap3 exMap3 false = some c2 ∧ mapWalkKV c2 = mapWalkKV exMap3 ∧
      c2.size = exMap3.size) :=
  copy_preserves_sequence exMap3 exTree3
    ⟨by decide, by decide, by decide, by decide, by decide, by decide, by decide,
     by decide, by decide, by decide⟩
    exMap3 exTree3
    ⟨by decide, by decide, by decide, by decide, by decide, by decide, by decide,
     by decide, by decide, by decide⟩ 1

/-- **C3**: inserting a key already present in the map (a key neither less nor
greater than the key of a live node) performs no mutation at all — the
returned state is the very same state — and yields the existing node paired
with the flag `false`. -/
theorem insert_existing_key_no_mutation (s : MapState) (t : IdTree) (inv : SInv s t)
    (k v : Int) (n : Nat) (hn : n ∈ t.inorder) (hk : keyOf s n = k) :
    insertImpl s k v = some (s, n, false) := by
  unfold insertImpl
  rcases hr : s.root with _ | r
  · exfalso
    have hx := inv.extracts
    rw [hr] at hx
    cases hx
    simp at hn
  · have hx := inv.extracts
    rw [hr] at hx
    obtain ⟨m, hm, hmem, hkey⟩ := insertLoop_found hx inv.bst
      (hk ▸ List.mem_map_of_mem (keyOf s) hn) inv.size_lt_alloc
    have hmn : m = n := bst_key_inj inv.bst m hmem n hn (hkey.trans hk.symm)
    rw [hmn] at hm
    simp [hm]

/-- Witness for C3 on the concrete map `exMap3`. -/
theorem insert_existing_key_no_mutation_witness :
    insertImpl exMap3 3 99 = some (exMap3, 3, false) :=
  insert_existing_key_no_mutation exMap3 exTree3
    ⟨by decide, by decide, by decide, by decide, by decide, by decide, by decide,
     by decide, by decide, by decide⟩
    3 99 3 (by decide) (by decide)

/-- **C6** (amended): `at(key)` raises KeyNotFound (`index_out_of_bound`)
exactly when no live node holds an equal key, and returns the stored value of
the matching node otherwise (its embedding returns no state: the body performs
no writes); `erase(iterator)` and the iterator operations only ever raise
InvalidPosition, never KeyNotFound; however the const `operator[]` delegates
to `at`, so it too raises KeyNotFound on an absent key. -/
theorem at_keynotfound_spec (s : MapState) (t : IdTree) (inv : SInv s t) (k : Int) :
    (mapAt s k = some (.error .indexOutOfBound) ↔ k ∉ t.inorder.map (keyOf s)) ∧
    (∀ n ∈ t.inorder, keyOf s n = k → mapAt s k = some (.ok (valOf s n))) ∧
    (∀ it : Iter, mapEraseIter s it ≠ .error .indexOutOfBound) ∧
    (∀ it : Iter, iterInc s it ≠ .error .indexOutOfBound) ∧
    (∀ it : Iter, iterDec s it ≠ .error .indexOutOfBound) ∧
    (∀ it : Iter, iterDeref s it ≠ .error .indexOutOfBound) ∧
    mapBracketConst s k = mapAt s k := by
  refine ⟨⟨?_, ?_⟩, ?_, ?_, ?_, ?_, ?_, rfl⟩
  · intro h hmem
    simp only [List.mem_map] at hmem
    obtain ⟨n, hn, hkey⟩ := hmem
    rw [← hkey] at h
    unfold mapAt at h
    rw [mapFind_present inv hn] at h
    simp at h
  · intro h
    unfold mapAt
    rw [mapFind_absent inv h]
    rfl
  · intro n hn hkey
    rw [← hkey]
    unfold mapAt
    rw [mapFind_present inv hn]
    rfl
  · intro it h
    unfold mapEraseIter at h
    split at h
    · simp at h
    · split at h
      · simp at h
      · simp at h
  · intro it h
    unfold iterInc at h
    split at h
    · simp at h
    · split at h
      · simp at h
      · simp at h
  · intro it h
    unfold iterDec at h
    split at h
    · simp at h
    · split at h
      · simp at h
      · simp at h
  · intro it h
    unfold iterDeref at h
    split at h
    · simp at h
    · split at h
      · simp at h
      · simp at h

/-- Witness for C6 (amended) on the concrete map `exMap3` and key 7. -/
theorem at_keynotfound_spec_witness :
    (mapAt exMap3 7 = some (.error .indexOutOfBound) ↔
      (7 : Int) ∉ exTree3.inorder.map (keyOf exMap3)) ∧
    (∀ n ∈ exTree3.inorder, keyOf exMap3 n = 7 →
      mapAt exMap3 7 = some (.ok (valOf exMap3 n))) ∧
    (∀ it : Iter, mapEraseIter exMap3 it ≠ .error .indexOutOfBound) ∧
    (∀ it : Iter, iterInc exMap3 it ≠ .error .indexOutOfBound) ∧
    (∀ it : Iter, iterDec exMap3 it ≠ .error .indexOutOfBound) ∧
    (∀ it : Iter, iterDeref exMap3 it ≠ .error .indexOutOfBound) ∧
    mapBracketConst exMap3 7 = mapAt exMap3 7 :=
  at_keynotfound_spec exMap3 exTree3
    ⟨by decide, by decide, by decide, by decide, by decide, by decide, by decide,
     by decide, by decide, by decide⟩
    7

/-- **C6** counterexample: the const `operator[]` — an operation other than
`at` — raises KeyNotFound on an absent key. -/
theorem const_bracket_raises_keynotfound :
    mapBracketConst exMap3 7 = some (.error .indexOutOfBound) := rfl

/-- **C9** counterexample: dereferencing an iterator at the head sentinel does
not raise an invalid-operation error; `operator->` returns the sentinel's
null `value` pointer instead. -/
theorem deref_head_sentinel_no_error :
    iterDeref exMap3 { owner := 0, nod := some headId } = .ok none := rfl

/-- **C9** (amended): incrementing `end()`, decrementing `begin()` and
dereferencing `end()` each raise InvalidPosition (the embedding returns an
error and no state, mirroring that the C++ checks precede any mutation);
dereferencing the head sentinel is not checked and returns the null value
pointer without error. -/
theorem iter_boundary_checks (s : MapState) (hH : (s.node headId).value = none) :
    iterInc s (mapEnd s) = .error .invalidIterator ∧
    iterDec s (mapBegin s) = .error .invalidIterator ∧
    iterDeref s (mapEnd s) = .error .invalidIterator ∧
    iterDeref s { owner := s.id, nod := some headId } = .ok none := by
  refine ⟨?_, ?_, ?_, ?_⟩
  · simp [iterInc, mapEnd]
  · simp [iterDec, mapBegin]
  · simp [iterDeref, mapEnd]
  · simp only [headId] at hH
    simp [iterDeref, headId, tailId, hH]

/-- Witness for C9 (amended) on the concrete map `exMap3`. -/
theorem iter_boundary_checks_witness :
    iterInc exMap3 (mapEnd exMap3) = .error .invalidIterator ∧
    iterDec exMap3 (mapBegin exMap3) = .error .invalidIterator ∧
    iterDeref exMap3 (mapEnd exMap3) = .error .invalidIterator ∧
    iterDeref exMap3 { owner := exMap3.id, nod := some headId } = .ok none :=
  iter_boundary_checks exMap3 (by decide)

/-- **C10**: copy-assignment with the source aliasing the destination
(`this == &other`) is detected and returns the map unchanged — the same state,
hence the same size, sequence and stored values. -/
theorem self_assignment_unchanged (s : MapState) : mapAssign s s true = some s := rfl


/-- **C5**: erasing a node that has two children swaps it with its in-order
successor, which the code obtains in O(1) as the node's sequence-layer `next`
pointer (no subtree descent): the successor is exactly the node that follows
the target in the in-order walk, and the swap exchanges the two nodes'
structural identity — color, sequence links (`prev`/`next`), tree links
(`father`/`childL`/`childR`) and cached side (`which`), with the mutual
references patched to the counterpart — while the key/value payload of every
node stays attached to its original node object (no value is copied between
nodes). -/
theorem erase_two_children (s : MapState) (t : IdTree) (n b : Nat) (inv : SInv s t)
    (hmem : n ∈ t.inorder)
    (hcl : (s.node n).childL ≠ none) (hcr : (s.node n).childR ≠ none)
    (hb : b = (s.node n).next) :
    eraseImpl s n = eraseRest (swap_node { s with size := s.size - 1 } n b) n ∧
    (∃ l1 l2, t.inorder = l1 ++ n :: b :: l2) ∧
    ((swap_node { s with size := s.size - 1 } n b).node n).color = (s.node b).color ∧
    ((swap_node { s with size := s.size - 1 } n b).node b).color = (s.node n).color ∧
    ((swap_node { s with size := s.size - 1 } n b).node n).prev = b ∧
    ((swap_node { s with size := s.size - 1 } n b).node n).next = (s.node b).next ∧
    ((swap_node { s with size := s.size - 1 } n b).node n).father =
      (if (s.node b).father = some n then some b else (s.node b).father) ∧
    ((swap_node { s with size := s.size - 1 } n b).node n).childL = (s.node b).childL ∧
    ((swap_node { s with size := s.size - 1 } n b).node n).childR = (s.node b).childR ∧
    ((swap_node { s with size := s.size - 1 } n b).node n).which = (s.node b).which ∧
    ((swap_node { s with size := s.size - 1 } n b).node b).prev = (s.node n).prev ∧
    ((swap_node { s with size := s.size - 1 } n b).node b).next = n ∧
    ((swap_node { s with size := s.size - 1 } n b).node b).father = (s.node n).father ∧
    ((swap_node { s with size := s.size - 1 } n b).node b).childL = (s.node n).childL ∧
    ((swap_node { s with size := s.size - 1 } n b).node b).childR =
      (if (s.node n).childR = some b then some n else (s.node n).childR) ∧
    ((swap_node { s with size := s.size - 1 } n b).node b).which = (s.node n).which ∧
    (∀ j, ((swap_node { s with size := s.size - 1 } n b).node j).value = (s.node j).value) := by
  subst hb
  obtain ⟨l1, l2, hsp, hab, hbprev, hapn, hapb, hbnn, hbna, hafa, hafb, hbfb, halL,
    halLb, harR, hbclnone, hbrR, hbrRa, hco1, hco2⟩ :=
    erase_swap_context inv hmem hcl hcr
  have hblL : (s.node ((s.node n).next)).childL ≠ some ((s.node n).next) := by
    rw [hbclnone]
    simp
  have hblLa : (s.node ((s.node n).next)).childL ≠ some n := by
    rw [hbclnone]
    simp
  have hlinks :=
    swap_node_links { s with size := s.size - 1 } n ((s.node n).next) hab rfl hbprev
      hapn hapb hbnn hbna hafa hafb hbfb halL halLb harR hblL hblLa hbrR hbrRa hco1 hco2
  obtain ⟨e1, e2, e3, e4, e5, e6, e7, e8, e9, e10, e11, e12⟩ := hlinks
  refine ⟨?_, ⟨l1, l2, hsp⟩, ?_, ?_, e1, e2, e3, e4, e5, e6, e7, e8, e9, e10, e11, e12,
    fun j => (Veq.v_refl.v_swap_node_right n ((s.node n).next)) j⟩
  · show eraseRest (if (s.node n).childL ≠ none ∧ (s.node n).childR ≠ none then
      swap_node { s with size := s.size - 1 } n ((s.node n).next)
      else { s with size := s.size - 1 }) n = _
    rw [if_pos ⟨hcl, hcr⟩]
  · rw [swap_node_color]
    simp
  · rw [swap_node_color]
    simp [Ne.symm hab]

theorem erase_two_children_witness :
    (2 : Nat) ∈ exTree3.inorder ∧ (exMap3.node 2).childL ≠ none ∧
    (exMap3.node 2).childR ≠ none ∧ (4 : Nat) = (exMap3.node 2).next ∧
    eraseImpl exMap3 2 = eraseRest (swap_node { exMap3 with size := exMap3.size - 1 } 2 4) 2 ∧
    (∃ l1 l2, exTree3.inorder = l1 ++ 2 :: 4 :: l2) ∧
    ((swap_node { exMap3 with size := exMap3.size - 1 } 2 4).node 2).color =
      (exMap3.node 4).color ∧
    ((swap_node { exMap3 with size := exMap3.size - 1 } 2 4).node 4).color =
      (exMap3.node 2).color ∧
    (∀ j, ((swap_node { exMap3 with size := exMap3.size - 1 } 2 4).node j).value =
      (exMap3.node j).value) :=
  have h := erase_two_children exMap3 exTree3 2 4
    ⟨by decide, by decide, by decide, by decide, by decide, by decide, by decide,
     by decide, by decide, by decide⟩
    (by decide) (by decide) (by decide) (by decide)
  ⟨by decide, by decide, by decide, by decide, h.1, h.2.1, h.2.2.1, h.2.2.2.1,
    h.2.2.2.2.2.2.2.2.2.2.2.2.2.2.2.2⟩


/-- **C7**: the non-const `operator[]` never fails: on a present key it
returns the stored value and the map is unchanged; on an absent key it first
inserts a new entry pairing the key with the default-constructed value `0`,
increasing the size by one, and returns that value.  The claim's "never
fails" does not extend to the const overload of `operator[]`, which delegates
to `at` and raises KeyNotFound on an absent key (see the counterexample). -/
theorem bracket_total_spec (s : MapState) (t : IdTree) (inv : SInv s t) (k : Int) :
    (∀ n, n ∈ t.inorder → keyOf s n = k → mapBracket s k = some (s, valOf s n)) ∧
    (k ∉ t.inorder.map (keyOf s) →
      ∃ s1 n, mapBracket s k = some (s1, 0) ∧ s1.size = s.size + 1 ∧
        keyOf s1 n = k ∧ valOf s1 n = 0) := by
  constructor
  · intro n hn hkey
    unfold mapBracket
    rw [insert_existing_key_no_mutation s t inv k 0 n hn hkey]
  · intro hk
    obtain ⟨s1, n, himpl, hsz, hkey, hval⟩ := insert_absent_spec inv 0 hk
    refine ⟨s1, n, ?_, hsz, hkey, hval⟩
    unfold mapBracket
    simp only [himpl]
    rw [hval]

theorem bracket_total_spec_witness :
    ((2 : Nat) ∈ exTree3.inorder ∧ keyOf exMap3 2 = 5 ∧
      mapBracket exMap3 5 = some (exMap3, valOf exMap3 2)) ∧
    ((7 : Int) ∉ exTree3.inorder.map (keyOf exMap3) ∧
      ∃ s1 n, mapBracket exMap3 7 = some (s1, 0) ∧ s1.size = exMap3.size + 1 ∧
        keyOf s1 n = 7 ∧ valOf s1 n = 0) :=
  ⟨⟨by decide, by decide,
    (bracket_total_spec exMap3 exTree3 ⟨by decide, by decide, by decide, by decide,
      by decide, by decide, by decide, by decide, by decide, by decide⟩ 5).1 2
      (by decide) (by decide)⟩,
   ⟨by decide,
    (bracket_total_spec exMap3 exTree3 ⟨by decide, by decide, by decide, by decide,
      by decide, by decide, by decide, by decide, by decide, by decide⟩ 7).2
      (by decide)⟩⟩

/-- **C7** counterexample: the const overload of `operator[]` delegates to
`at` and raises KeyNotFound on an absent key, so `operator[]` taken as a
whole does not "never fail". -/
theorem const_bracket_not_total :
    mapBracketConst (emptyMap 0) 0 = some (.error .indexOutOfBound) := rfl


end sjtu
